import Mathlib

/-!
Verification of the vmemcache specification against a shallow embedding of
the source (src/src/vmemcache.c, vmemcache_heap.c, vmemcache_index.c,
critnib.c, vmemcache_repl.c).

Modelling conventions:
* machine integers are `Nat`; the few places where C unsigned wrap-around
  matters are noted in comments and restructured into an equivalent
  non-wrapping form;
* bytes are `Nat` values (in the intended states `< 256`);
* uninitialised memory is an explicit junk stream or a byte oracle;
* errno is threaded explicitly; the logging macros (out.h, absent from the
  sources) do not modify errno, matching their described role as pure
  logging ("the logging macros" are external collaborators per the spec);
* errno numbers are the Linux values used by the code.
-/

/-! # Constants -/

def ENOENT : Nat := 2

def ESRCH : Nat := 3

def ENOMEM : Nat := 12

def EEXIST : Nat := 17

def EINVAL : Nat := 22

def ENOSPC : Nat := 28

def EALREADY : Nat := 114

/-- `VMEMCACHE_MIN_POOL` from libvmemcache.h (1 MiB). -/
def VMEMCACHE_MIN_POOL : Nat := 1024 * 1024

/-- `VMEMCACHE_MIN_EXTENT` from libvmemcache.h (256 bytes). -/
def VMEMCACHE_MIN_EXTENT : Nat := 256

/-- `roundup(x, y)` as used by vmemcache_heap.c (standard sys/param.h macro,
rounds `x` up to a multiple of `y`). -/
def roundup (x y : Nat) : Nat := ((x + y - 1) / y) * y

/-- `ALIGN_DOWN(x, y)`: round `x` down to a multiple of `y`. -/
def alignDown (x y : Nat) : Nat := (x / y) * y

/-- `HFER_SIZE` from vmemcache_heap.c: `sizeof(struct header) +
sizeof(struct footer)` = (8 + 8 + 8) + 8 = 32 bytes on a 64-bit target. -/
def HFER_SIZE : Nat := 32

/-! # Byte-level value population (vmemcache.c)

`vmemcache_populate_extents` copies the value bytes into the extent chain
in chain order (each extent receives `min(ext.size, size_left)` bytes);
`vmemcache_populate_value` reads a slice back.  An extent's content is the
next bytes of the value followed by uninitialised memory; we model the
chain as the split of `value ++ junk` at the extent sizes, with `junk` an
arbitrary stream standing for the uninitialised bytes. -/

/-- The value-section of `struct cache_entry` as far as reads are concerned:
the true value size `vsize` and the contents of the extents in chain
order. -/
structure CacheEntryValue where
  vsize : Nat
  extents : List (List Nat)
deriving Repr, DecidableEq

/-- Split a byte stream at the given extent sizes: extent `i` holds the next
`sizes[i]` bytes of the stream. -/
def chainContents : List Nat → List Nat → List (List Nat)
  | [], _ => []
  | s :: rest, w => w.take s :: chainContents rest (w.drop s)

/-- `vmemcache_populate_extents` (vmemcache.c:313-329): copy `value` into the
chain and set `entry->value.vsize = value_size`.  `junk` is the
uninitialised memory occupying the bytes of the chain past the value. -/
def vmemcache_populate_extents (sizes : List Nat) (value junk : List Nat) :
    CacheEntryValue :=
  { vsize := value.length, extents := chainContents sizes (value ++ junk) }

/-- The `EXTENTS_FOREACH` loop body of `vmemcache_populate_value`
(vmemcache.c:448-477): skip whole extents while `offset` exceeds them, then
copy `min` amounts, stopping when the buffer or the value is exhausted.
Arguments: chain contents, `vbufsize`, `offset`, `left_to_copy`.  The
result is the list of bytes copied to the user buffer (`copied` is its
length). -/
def pvLoop : List (List Nat) → Nat → Nat → Nat → List Nat
  | [], _, _, _ => []
  | ext :: rest, vbufsize, offset, left =>
    if 0 < offset ∧ ext.length < offset then
      pvLoop rest vbufsize (offset - ext.length) left
    else
      let len := min (ext.length - offset) (min left vbufsize)
      let piece := (ext.drop offset).take len
      if vbufsize - len = 0 ∨ left - len = 0 then piece
      else piece ++ pvLoop rest (vbufsize - len) 0 (left - len)

/-- `vmemcache_populate_value` (vmemcache.c:437-480): returns 0 bytes when
the user buffer is NULL or `offset >= vsize`, otherwise walks the chain. -/
def vmemcache_populate_value (vbufNull : Bool) (vbufsize offset : Nat)
    (entry : CacheEntryValue) : List Nat :=
  if vbufNull ∨ entry.vsize ≤ offset then []
  else pvLoop entry.extents vbufsize offset (entry.vsize - offset)

/-- The hit path of `vmemcache_get` (vmemcache.c:560-573) on a cached entry:
copy the requested slice and write the true value size to `*vsize`.
Returns (bytes copied, value written to `*vsize`). -/
def vmemcache_get_hit (entry : CacheEntryValue) (vbufsize offset : Nat) :
    List Nat × Nat :=
  (vmemcache_populate_value false vbufsize offset entry, entry.vsize)

/-! # Configuration setters (vmemcache.c:86-156) -/

/-- The configuration-relevant fields of `struct vmemcache` before/after
arming, plus the thread's errno. -/
structure VMEMcacheConfig where
  ready : Bool
  size : Nat
  extent_size : Nat
  repl_p : Nat
  errno : Nat
deriving Repr, DecidableEq

/-- `vmemcache_set_eviction_policy` (vmemcache.c:86-100). -/
def vmemcache_set_eviction_policy (c : VMEMcacheConfig) (repl_p : Nat) :
    Int × VMEMcacheConfig :=
  if c.ready then (-1, { c with errno := EALREADY })
  else (0, { c with repl_p := repl_p })

/-- `vmemcache_set_size` (vmemcache.c:105-131); the 64-bit branch of the
implausible-size check (`1ULL << 56`). -/
def vmemcache_set_size (c : VMEMcacheConfig) (size : Nat) :
    Int × VMEMcacheConfig :=
  if c.ready then (-1, { c with errno := EALREADY })
  else if size < VMEMCACHE_MIN_POOL then (-1, { c with errno := EINVAL })
  else if 2 ^ 56 ≤ size then (-1, { c with errno := EINVAL })
  else (0, { c with size := size })

/-- `vmemcache_set_extent_size` (vmemcache.c:136-156). -/
def vmemcache_set_extent_size (c : VMEMcacheConfig) (extent_size : Nat) :
    Int × VMEMcacheConfig :=
  if c.ready then (-1, { c with errno := EALREADY })
  else if extent_size < VMEMCACHE_MIN_EXTENT then
    (-1, { c with errno := EINVAL })
  else (0, { c with extent_size := extent_size })

/-! # Thread-local get request and the satisfy-get path (vmemcache.c:52-61,
331-351) -/

/-- The thread-local `get_req` record together with the observable effect on
the caller's buffer (`copied`) and size output (`vsizeOut`). -/
structure GetReqState where
  keyArmed : Bool
  ksize : Nat
  keyBytes : List Nat
  vbufPresent : Bool
  vbufsize : Nat
  offset : Nat
  vsizeWanted : Bool
  copied : List Nat
  vsizeOut : Option Nat
deriving Repr, DecidableEq

/-- `vmemcache_put_satisfy_get` (vmemcache.c:331-351).  `value` is a byte
oracle for the new value; note the code copies from the START of the value
(it does not add `get_req.offset` to the source pointer). -/
def vmemcache_put_satisfy_get (req : GetReqState) (ksize : Nat)
    (key : List Nat) (value : Nat → Nat) (value_size : Nat) : GetReqState :=
  if req.ksize ≠ ksize ∨ req.keyBytes ≠ key then req
  else
    let req1 := { req with keyArmed := false }
    let req2 :=
      if value_size ≤ req1.offset then { req1 with vbufsize := 0 }
      else
        let newsize :=
          if value_size - req1.offset < req1.vbufsize then
            value_size - req1.offset
          else req1.vbufsize
        let r := { req1 with vbufsize := newsize }
        if r.vbufPresent then
          { r with copied := (List.range newsize).map value }
        else r
    if req2.vsizeWanted then { req2 with vsizeOut := some value_size }
    else req2

/-! # Entry refcount lifecycle (vmemcache.c:483-512, vmemcache_index.c,
vmemcache_repl.c)

A sequential abstraction of one entry's lifetime: the reference holders are
the index (set to exactly 1 by a successful `vmcache_index_insert`), the
replacement policy node (acquired by `repl_p_lru_insert`), and in-flight
lookups (`vmcache_index_get` acquires before returning).  A freed entry
struct is never reused. -/

structure EntryLife where
  refcount : Nat
  indexed : Bool
  inRepl : Bool
  usersOut : Nat
  freed : Bool
deriving Repr, DecidableEq

/-- `vmemcache_entry_release` (vmemcache.c:496-512): decrement; when the
previous value was 1 the extent chain is returned to the heap and the
entry struct freed. -/
def entryLifeRelease (s : EntryLife) : EntryLife :=
  if s.refcount = 1 then { s with refcount := 0, freed := true }
  else { s with refcount := s.refcount - 1 }

inductive LifeOp where
  | indexInsert
  | indexGet
  | replInsert
  | userRelease
  | replRelease
  | indexRemove
deriving Repr, DecidableEq

/-- One call-site-faithful step of an entry's lifecycle.  Guards express the
call discipline of the source: `vmcache_index_insert` publishes a fresh
entry and sets `refcount = 1` (vmemcache_index.c:189); `vmcache_index_get`
only returns indexed entries and acquires first (vmemcache_index.c:235);
`repl_p_lru_insert` acquires (vmemcache_repl.c:280); each release matches
a held reference (`vmemcache_get` end, eviction's policy release,
`vmcache_index_remove`). -/
def applyLife (s : EntryLife) : LifeOp → EntryLife
  | .indexInsert =>
    if ¬s.indexed ∧ ¬s.inRepl ∧ s.usersOut = 0 ∧ s.refcount = 0 ∧ ¬s.freed
    then { s with refcount := 1, indexed := true } else s
  | .indexGet =>
    if s.indexed then
      { s with refcount := s.refcount + 1, usersOut := s.usersOut + 1 }
    else s
  | .replInsert =>
    if s.indexed ∧ ¬s.inRepl then
      { s with refcount := s.refcount + 1, inRepl := true }
    else s
  | .userRelease =>
    if 0 < s.usersOut then entryLifeRelease { s with usersOut := s.usersOut - 1 }
    else s
  | .replRelease =>
    if s.inRepl then entryLifeRelease { s with inRepl := false } else s
  | .indexRemove =>
    if s.indexed then entryLifeRelease { s with indexed := false } else s

/-- The state of an entry struct fresh out of `Zalloc` (vmemcache.c:374). -/
def entryLifeStart : EntryLife := ⟨0, false, false, 0, false⟩

def runLife (ops : List LifeOp) : EntryLife := ops.foldl applyLife entryLifeStart

/-- The lifecycle invariant: while not freed, the refcount counts exactly
the live references; a freed entry has no references left. -/
def lifeInv (s : EntryLife) : Prop :=
  (¬s.freed → s.refcount =
    s.usersOut + (if s.indexed then 1 else 0) + (if s.inRepl then 1 else 0)) ∧
  (s.freed → s.refcount = 0 ∧ s.usersOut = 0 ∧ ¬s.indexed ∧ ¬s.inRepl)

/-! # The critnib index (critnib.c)

Keys are byte lists.  The tree indexes the byte string starting at
`&e->key`, i.e. the 8 bytes of the `size_t ksize` field followed by the
key bytes (`KEYLEN(leaf) = ksize + sizeof(size_t)`, critnib.c:58).
Leaves carry an entry id standing for the tagged entry pointer. -/

/-- `slice_index` (critnib.c:92-96): the 4-bit slice of byte `b` at shift
`bit` (bytes are unsigned byte values here). -/
def sliceIndex (b bit : Nat) : Nat := (b >>> bit) &&& 15

/-- The 8 little-endian bytes of a 64-bit `size_t`. -/
def encode8 (n : Nat) : List Nat :=
  [n % 256, n / 256 % 256, n / 65536 % 256, n / 16777216 % 256,
    n / 4294967296 % 256, n / 1099511627776 % 256,
    n / 281474976710656 % 256, n / 72057594037927936 % 256]

/-- The byte string critnib actually indexes for an entry: `struct key`
starts with the `size_t ksize` field, so the 8 ksize bytes precede the
key bytes (critnib.c:58, critnib.c:176). -/
def fullKey (ksize : Nat) (key : List Nat) : List Nat := encode8 ksize ++ key

/-- A critnib tree: tagged leaf pointers become `leaf` (entry id plus the
indexed byte string), interior nodes carry the 16 child slots and the
(byte, bit) discrimination position.  A NULL child is `none`. -/
inductive CNode where
  | leaf (id : Nat) (key : List Nat) : CNode
  | node (children : List (Option CNode)) (byte : Nat) (bit : Nat) : CNode
deriving Repr

/-- `n->child[i]` (NULL for out of range, which does not occur). -/
def childAt : List (Option CNode) → Nat → Option CNode
  | [], _ => none
  | c :: _, 0 => c
  | _ :: cs, n + 1 => childAt cs n

/-- Size bound used for termination of the descent functions. -/
def childAt_sizeOf_le :
    ∀ (ch : List (Option CNode)) (i : Nat), sizeOf (childAt ch i) ≤ sizeOf ch := by
  intro ch
  induction ch with
  | nil => intro i; simp [childAt]
  | cons c cs ih =>
    intro i
    cases i with
    | zero => simp [childAt]; omega
    | succ n =>
      have := ih n
      simp [childAt]
      omega

/-- The first descent of `critnib_set` (critnib.c:191-204): walk down while
interior and `n->byte < key_len`; stop at a leaf, or at the node whose
needed child slot is empty (the caller then takes `any_leaf`). -/
def descend1 (key : List Nat) : CNode → CNode
  | .leaf i k => .leaf i k
  | .node ch byte bit =>
    if byte < key.length then
      match hc : childAt ch (sliceIndex (key.getD byte 0) bit) with
      | some nn => descend1 key nn
      | none => .node ch byte bit
    else .node ch byte bit
termination_by t => sizeOf t
decreasing_by
  rename_i ch byte bit h
  have h1 := childAt_sizeOf_le ch (sliceIndex (key.getD byte 0) bit)
  rw [hc] at h1
  simp at h1 ⊢
  omega

mutual

/-- `any_leaf` (critnib.c:159-168). -/
def anyLeaf : CNode → Option CNode
  | .leaf i k => some (.leaf i k)
  | .node ch _ _ => anyLeafList ch
termination_by t => sizeOf t
decreasing_by all_goals (simp; try omega)

/-- The child-array loop of `any_leaf`. -/
def anyLeafList : List (Option CNode) → Option CNode
  | [] => none
  | none :: rest => anyLeafList rest
  | some m :: _ => anyLeaf m
termination_by l => sizeOf l
decreasing_by all_goals (simp; try omega)

end

/-- The byte-granular divergence scan of `critnib_set` (critnib.c:212-218):
index of the first differing byte, stopping at the shorter length. -/
def firstDiff : List Nat → List Nat → Nat
  | a :: as, b :: bs => if a = b then firstDiff as bs + 1 else 0
  | _, _ => 0

/-- Base-2 logarithm by structural recursion on a bit-width budget (the C
value is a `uint32_t`, hence the 32 in `mssbNibbleShift`). -/
def log2w : Nat → Nat → Nat
  | 0, _ => 0
  | w + 1, n => if n < 2 then 0 else log2w w (n / 2) + 1

/-- Modelled from the spec: `util_mssb_index` lives in util.h, which is not
among the sources; the spec says the slice shift is the "index of
most-significant set bit of the XOR, rounded down to a multiple of 4"
(critnib.c:230 applies `& ~(SLICE - 1)` to it). -/
def mssbNibbleShift (x : Nat) : Nat := (log2w 32 x / 4) * 4

/-- The fresh interior node spliced into an edge (critnib.c:252-259): the
incumbent subtree and the new leaf are stored at their slices of byte
`diff`, in that order. -/
def mkSplitNode (nkey key : List Nat) (newId diff sh : Nat)
    (incumbent : CNode) : Option CNode :=
  let ch0 := (List.replicate 16 (none : Option CNode)).set
      (sliceIndex (nkey.getD diff 0) sh) (some incumbent)
  let ch1 := ch0.set (sliceIndex (key.getD diff 0) sh)
      (some (.leaf newId key))
  some (.node ch1 diff sh)

/-- The second descent of `critnib_set` (critnib.c:233-260): walk while
`n->byte < diff || (n->byte == diff && n->bit >= sh)`; place the leaf in
an empty slot or splice a new node into the edge. -/
def insert2 (newId : Nat) (key nkey : List Nat) (diff sh : Nat) :
    Option CNode → Option CNode
  | none => some (.leaf newId key)
  | some (.leaf i k) => mkSplitNode nkey key newId diff sh (.leaf i k)
  | some (.node ch byte bit) =>
    if byte < diff ∨ (byte = diff ∧ sh ≤ bit) then
      let s := sliceIndex (key.getD byte 0) bit
      some (.node (ch.set s (insert2 newId key nkey diff sh (childAt ch s)))
        byte bit)
    else mkSplitNode nkey key newId diff sh (.node ch byte bit)
termination_by o => sizeOf o
decreasing_by
  exact Nat.lt_of_le_of_lt (childAt_sizeOf_le _ _) (by simp; omega)

/-- `critnib_set` (critnib.c:173-261): 0 on success, `EEXIST` when the new
key and the divergence leaf agree over their whole common length (exact
duplicate, or one indexed byte string a prefix of the other).  `ENOMEM`
cannot occur in the model. -/
def critnib_set (root : Option CNode) (newId : Nat) (key : List Nat) :
    Nat × Option CNode :=
  match root with
  | none => (0, some (.leaf newId key))
  | some n =>
    let lf := match descend1 key n with
      | .leaf i k => some (CNode.leaf i k)
      | .node ch b bi => anyLeaf (.node ch b bi)
    match lf with
    | some (.leaf _ nkey) =>
      let diff := firstDiff nkey key
      if min nkey.length key.length ≤ diff then (EEXIST, root)
      else
        let a := (nkey.getD diff 0) ^^^ (key.getD diff 0)
        (0, insert2 newId key nkey diff (mssbNibbleShift a) root)
    | _ => (0, root)

/-- The descent loop of `critnib_get` (critnib.c:272-277). -/
def getGo (key : List Nat) : CNode → Option (Nat × List Nat)
  | .leaf i k => some (i, k)
  | .node ch byte bit =>
    if key.length ≤ byte then none
    else
      match hc : childAt ch (sliceIndex (key.getD byte 0) bit) with
      | none => none
      | some c => getGo key c
termination_by t => sizeOf t
decreasing_by
  rename_i ch byte bit h
  have h1 := childAt_sizeOf_le ch (sliceIndex (key.getD byte 0) bit)
  rw [hc] at h1
  simp at h1 ⊢
  omega

/-- `critnib_get` (critnib.c:266-290): descend by nibbles, then verify the
whole key (`memcmp`). -/
def critnib_get (root : Option CNode) (key : List Nat) : Option Nat :=
  match root with
  | none => none
  | some n =>
    match getGo key n with
    | none => none
    | some (i, k) => if k = key then some i else none

/-- The single-remaining-child scan of `critnib_remove`
(critnib.c:329-343). -/
def onlyChildOf (ch : List (Option CNode)) : Option CNode :=
  match ch.filterMap id with
  | [c] => some c
  | _ => none

/-- The descent of `critnib_remove` (critnib.c:303-344) below the root:
detach the leaf with the exact key and splice out its parent when a single
child remains. -/
def removeGo (key : List Nat) : CNode → Option Nat × CNode
  | .leaf i k => (none, .leaf i k)
  | .node ch byte bit =>
    if key.length ≤ byte then (none, .node ch byte bit)
    else
      let s := sliceIndex (key.getD byte 0) bit
      match hc : childAt ch s with
      | none => (none, .node ch byte bit)
      | some (.leaf i k) =>
        if k = key then
          let ch' := ch.set s none
          match onlyChildOf ch' with
          | some c => (some i, c)
          | none => (some i, .node ch' byte bit)
        else (none, .node ch byte bit)
      | some (.node ch2 b2 bi2) =>
        let r := removeGo key (.node ch2 b2 bi2)
        (r.1, .node (ch.set s (some r.2)) byte bit)
termination_by t => sizeOf t
decreasing_by
  rename_i ch byte bit h
  have h1 := childAt_sizeOf_le ch (sliceIndex (key.getD byte 0) bit)
  rw [hc] at h1
  simp at h1 ⊢
  omega

/-- `critnib_remove` (critnib.c:297-345). -/
def critnib_remove (root : Option CNode) (key : List Nat) :
    Option Nat × Option CNode :=
  match root with
  | none => (none, none)
  | some (.leaf i k) =>
    if k = key then (some i, none) else (none, some (.leaf i k))
  | some (.node ch b bi) =>
    let r := removeGo key (.node ch b bi)
    (r.1, some r.2)


/-! # The extent heap (vmemcache_heap.c)

The backing region is a contiguous run of extents, each carrying an
in-band header `{next, prev, size|flag}` and footer `{size|flag}`.  We
model the region as its address-ordered block list (`total` is the
heap-entry size `he.size`, i.e. usable bytes plus `HFER_SIZE`; `free` is
the negation of the `FLAG_ALLOCATED` bit, kept header/footer-consistent),
plus the free list as the list of block start addresses in list order
(head = `heap->first_extent`).  The guard marks at the region ends
(pre-marked allocated, vmemcache_heap.c:294-302) are the implicit list
ends: merging never walks past them. -/

structure HBlock where
  total : Nat
  free : Bool
deriving Repr, DecidableEq

structure HeapSt where
  extent_size : Nat
  blocks : List HBlock
  freeList : List Nat
  size_used : Nat
  entries : Nat
deriving Repr, DecidableEq

def sumTot (bs : List HBlock) : Nat := (bs.map HBlock.total).sum

/-- Sum of the user-visible sizes of the allocated blocks (the quantity
`size_used` tracks). -/
def allocData (bs : List HBlock) : Nat :=
  (bs.map (fun b => if b.free then 0 else b.total - HFER_SIZE)).sum

/-- Start addresses of the free blocks, in address order, starting at
`base`. -/
def freeA : Nat → List HBlock → List Nat
  | _, [] => []
  | a, b :: bs =>
    if b.free then a :: freeA (a + b.total) bs else freeA (a + b.total) bs

/-- No two physically adjacent extents are both free. -/
def noAdjFree (bs : List HBlock) : Prop :=
  List.Chain' (fun x y => ¬(x.free = true ∧ y.free = true)) bs

instance (bs : List HBlock) : Decidable (noAdjFree bs) := by
  unfold noAdjFree; infer_instance

/-- Locate the block whose start address is `a`: the blocks before it, the
block, and the blocks after it. -/
def findBlock : List HBlock → Nat → Option (List HBlock × HBlock × List HBlock)
  | [], _ => none
  | b :: bs, a =>
    if a = 0 then some ([], b, bs)
    else if a < b.total then none
    else
      match findBlock bs (a - b.total) with
      | none => none
      | some (p, c, s) => some (b :: p, c, s)

def blockAtAddr (bs : List HBlock) (a : Nat) : Option HBlock :=
  (findBlock bs a).map (fun r => r.2.1)

/-- `vmcache_heap_merge` followed by `vmcache_insert_heap_entry(.., IS_FREE)`
(vmemcache_heap.c:498-527, 192-227), the per-extent work of freeing the
allocated extent starting at `a`: absorb a free left neighbour (found via
its footer) and a free right neighbour (found via its header), unlink them
from the free list (`vmcache_heap_remove` decrements `entries` for each),
then insert the merged range at the free-list head (`entries` + 1).
`size_used` is managed by the callers. -/
def optFree : Option HBlock → Bool
  | some b => b.free
  | none => false

def optTot : Option HBlock → Nat
  | some b => b.total
  | none => 0

def heapFreeBlock (st : HeapSt) (a : Nat) : HeapSt :=
  match findBlock st.blocks a with
  | none => st
  | some (p, c, s) =>
    let lmerge := optFree p.getLast?
    let rmerge := optFree s.head?
    let lTot := optTot p.getLast?
    let rTot := optTot s.head?
    let newTotal := c.total + (if lmerge then lTot else 0)
      + (if rmerge then rTot else 0)
    let newAddr := if lmerge then a - lTot else a
    let p2 := if lmerge then p.dropLast else p
    let s2 := if rmerge then s.tail else s
    let fl1 := if lmerge then st.freeList.erase (a - lTot) else st.freeList
    let fl2 := if rmerge then fl1.erase (a + c.total) else fl1
    { st with
      blocks := p2 ++ ⟨newTotal, true⟩ :: s2,
      freeList := newAddr :: fl2,
      entries := (st.entries - (if lmerge then 1 else 0)
        - (if rmerge then 1 else 0)) + 1 }

/-- `vmcache_free` (vmemcache_heap.c:532-563): walk the chain in order
(`EXTENTS_FOREACH_SAFE`), read each extent's usable size, merge and free
it, and finally subtract the freed bytes from `size_used`. -/
def freeStep (acc : HeapSt × Nat) (a : Nat) : HeapSt × Nat :=
  let d := match blockAtAddr acc.1.blocks a with
    | some b => b.total - HFER_SIZE
    | none => 0
  (heapFreeBlock acc.1 a, acc.2 + d)

def vmcache_free (st : HeapSt) (chain : List Nat) : HeapSt :=
  let r := chain.foldl freeStep (st, 0)
  { r.1 with size_used := r.1.size_used - r.2 }

structure AllocOut where
  st : HeapSt
  chain : List Nat
  small : Option Nat
  trace : List (Nat × Bool)
  allocated : Nat
  freedSmall : Nat
  remaining : Nat
deriving Repr, DecidableEq

/-- The loop state of `vmcache_alloc`: heap, `to_allocate`, the entry's
extent chain (LIFO, head = `*first_extent`), the `small_extent` slot, the
`allocated` accumulator, the bytes freed by `vmcache_free_extent` (C
subtracts them from `size_used` inside the loop; the model defers the
subtraction, see `vmcache_alloc`), and an instrumentation trace of the
pieces handed out: (piece total size, split?). -/
structure AllocIter where
  st : HeapSt
  toAlloc : Nat
  chain : List Nat
  small : Option Nat
  allocated : Nat
  freedSmall : Nat
  trace : List (Nat × Bool)
deriving Repr, DecidableEq

inductive AllocStepRes where
  | stop (it : AllocIter)
  | last (it : AllocIter)
  | more (it : AllocIter)
deriving Repr, DecidableEq

def AllocStepRes.out : AllocStepRes → AllocIter
  | .stop it => it
  | .last it => it
  | .more it => it

/-- One iteration of the do-while loop of `vmcache_alloc`
(vmemcache_heap.c:412-449): pop the free-list head
(`vmcache_pop_heap_entry`); round the request so the piece's TOTAL size
(usable bytes plus header and footer) is
`roundup(to_allocate + HFER_SIZE, extent_size)`; split when the leftover
can hold at least one more extent, enqueueing the free remainder at the
free-list head; insert the piece at the chain head; record a one-extent
piece in `small_extent`; free the recorded small extent
(`vmcache_free_extent`, vmemcache_heap.c:347-383) when the over-grant
covers the deficit by at least one extent's usable size — the freed
piece's usable size is `extent_size - HFER_SIZE`, equal to its block size
by the recording condition.  `stop` is the `break` on an empty free list;
`last` ends the loop with `to_allocate == 0`. -/
def allocStep (it : AllocIter) : AllocStepRes :=
  match it.st.freeList with
  | [] => .stop it
  | a :: restFL =>
    match findBlock it.st.blocks a with
    | none => .stop it
    | some (p, c, s) =>
      let E := it.st.extent_size
      let toAlloc := it.toAlloc
      let allocSize := roundup (toAlloc + HFER_SIZE) E
      let doSplit := decide (allocSize + E ≤ c.total)
      let heTotal := if doSplit then allocSize else c.total
      let blocks1 := if doSplit then
          p ++ ⟨allocSize, false⟩ :: ⟨c.total - allocSize, true⟩ :: s
        else p ++ ⟨c.total, false⟩ :: s
      let fl1 := if doSplit then (a + allocSize) :: restFL else restFL
      let entries1 :=
        if doSplit then it.st.entries - 1 + 1 else it.st.entries - 1
      let st1 : HeapSt :=
        { it.st with blocks := blocks1, freeList := fl1, entries := entries1 }
      let chain1 := a :: it.chain
      let small1 := if it.small = none ∧ heTotal = E then some a else it.small
      let dataSz := heTotal - HFER_SIZE
      let step2 :=
        if toAlloc < dataSz ∧ E - HFER_SIZE ≤ dataSz - toAlloc ∧
            small1 ≠ none then
          match small1 with
          | some sm =>
            (heapFreeBlock st1 sm, chain1.erase sm,
              it.freedSmall + (E - HFER_SIZE))
          | none => (st1, chain1, it.freedSmall)
        else (st1, chain1, it.freedSmall)
      let it1 : AllocIter :=
        { st := step2.1, toAlloc := toAlloc - min dataSz toAlloc,
          chain := step2.2.1, small := small1,
          allocated := it.allocated + dataSz, freedSmall := step2.2.2,
          trace := it.trace ++ [(heTotal, doSplit)] }
      if toAlloc - min dataSz toAlloc = 0 then .last it1 else .more it1

/-- The do-while loop.  `fuel` only bounds the number of pops;
`freeList.length + 1` always suffices, since every `more` iteration pops
one free-list entry and pushes none. -/
def allocLoop : Nat → AllocIter → AllocIter
  | 0, it => it
  | fuel + 1, it =>
    match allocStep it with
    | .stop it1 => it1
    | .last it1 => it1
    | .more it1 => allocLoop fuel it1

/-- `vmcache_alloc` (vmemcache_heap.c:394-458).  The C return value is
`size - to_allocate`.  C subtracts each `vmcache_free_extent`'s bytes from
`size_used` inside the loop and adds `allocated` once at the end; the two
are combined here (`allocated` always covers the freed small piece, whose
usable size it includes, so the combined form is exact). -/
def vmcache_alloc (st : HeapSt) (size : Nat) (chain : List Nat)
    (small : Option Nat) : AllocIter × Nat :=
  let out := allocLoop (st.freeList.length + 1)
    ⟨st, size, chain, small, 0, 0, []⟩
  ({ out with st := { out.st with
      size_used := out.st.size_used + out.allocated - out.freedSmall } },
   size - out.toAlloc)

/-- The usable interior of a mapping of `size` bytes based at address 0:
`ALIGN_UP` consumes the first 64 guard bytes and `ALIGN_DOWN(size - 64 -
64, 64)` the trailing guard (vmemcache_heap.c:267-291). -/
def heapUsable (size : Nat) : Nat := alignDown (size - 2 * 64) 64

/-- `vmcache_heap_create` + `vmcache_heap_add_mapping`
(vmemcache_heap.c:264-330): one free extent spans the usable interior. -/
def vmcache_heap_create (size extent_size : Nat) : HeapSt :=
  { extent_size := extent_size,
    blocks := [⟨heapUsable size, true⟩],
    freeList := [0],
    size_used := 0,
    entries := 1 }

def isAllocatedAt (st : HeapSt) (a : Nat) : Bool :=
  match blockAtAddr st.blocks a with
  | some b => !b.free
  | none => false

/-- Validity of a `small_extent` argument carried between `vmcache_alloc`
calls: it must denote an allocated block of exactly one extent (which is
how it gets recorded, vmemcache_heap.c:434-435). -/
def smallGuard (st : HeapSt) : Option Nat → Prop
  | none => True
  | some sm => ∃ b, blockAtAddr st.blocks sm = some b ∧ b.free = false ∧
      b.total = st.extent_size

instance (st : HeapSt) (sm : Option Nat) : Decidable (smallGuard st sm) := by
  cases sm <;> unfold smallGuard <;> infer_instance

/-- Validity of a chain passed to `vmcache_free`, mirroring the
precondition C imposes at each step of the `EXTENTS_FOREACH_SAFE` walk:
when an extent comes up, it must (still) be an allocated extent of the
heap (anything else is a double free or a stray pointer, which C
forbids). -/
def chainGuardB (st : HeapSt) : List Nat → Bool
  | [] => true
  | a :: rest => isAllocatedAt st a && chainGuardB (heapFreeBlock st a) rest

inductive HeapOp where
  | alloc (size : Nat) (small : Option Nat)
  | free (chain : List Nat)

/-- One heap API call; operations whose arguments C would reject as
undefined behaviour (double free, stale small extent) are no-ops. -/
def applyHeapOp (st : HeapSt) : HeapOp → HeapSt
  | .alloc size sm =>
    if smallGuard st sm then ((vmcache_alloc st size [] sm).1).st else st
  | .free chain =>
    if chainGuardB st chain then vmcache_free st chain else st

def applyHeapOps (st : HeapSt) (ops : List HeapOp) : HeapSt :=
  ops.foldl applyHeapOp st

/-- The structural part of heap well-formedness over a region of usable
size `R` with extent size `E`: header/footer-consistent block sizes large
enough to carry their metadata, no two adjacent free extents, the free
list enumerating exactly the free blocks, `entries` counting them, and
the region size conserved. -/
def HeapWF0 (E R : Nat) (st : HeapSt) : Prop :=
  st.extent_size = E ∧
  HFER_SIZE < E ∧
  (∀ b ∈ st.blocks, HFER_SIZE < b.total) ∧
  noAdjFree st.blocks ∧
  List.Perm st.freeList (freeA 0 st.blocks) ∧
  st.entries = st.freeList.length ∧
  sumTot st.blocks = R

instance (E R : Nat) (st : HeapSt) : Decidable (HeapWF0 E R st) := by
  unfold HeapWF0; infer_instance

/-- Full heap well-formedness: the structural invariant plus the
`size_used` accounting (it sums the allocated usable bytes). -/
def HeapWF (E R : Nat) (st : HeapSt) : Prop :=
  HeapWF0 E R st ∧ st.size_used = allocData st.blocks

instance (E R : Nat) (st : HeapSt) : Decidable (HeapWF E R st) := by
  unfold HeapWF; infer_instance

/-! # The composed cache (vmemcache.c, vmemcache_index.c, vmemcache_repl.c)

A sequential model of a whole cache: the extent heap, a single critnib
shard (`VMEMCACHE_SHARDING=0` makes `shard()` always pick `bucket[0]`,
vmemcache_index.c:71-78), the entry storage (an association list playing
the role of the allocator: `Free` removes the entry), and the replacement
policy state.  `repl_p` is the policy index into `repl_p_ops`
(vmemcache_repl.c:125-147): 0 = none, 1 = lru.  The spec-visible `errno`
is threaded through the state; a C path that does not assign `errno`
leaves the field untouched. -/

structure CEntry where
  ksize : Nat
  key : List Nat
  vsize : Nat
  extents : List Nat
  refcount : Nat
  evicting : Bool
  p_entry : Bool
deriving Repr, DecidableEq

structure CacheSt where
  size : Nat
  repl_p : Nat
  heap : HeapSt
  root : Option CNode
  tbl : List (Nat × CEntry)
  lruQ : List Nat
  nextId : Nat
  errno : Nat

def tget (tbl : List (Nat × CEntry)) (id : Nat) : Option CEntry :=
  tbl.lookup id

def tset (tbl : List (Nat × CEntry)) (id : Nat) (e : CEntry) :
    List (Nat × CEntry) :=
  tbl.map (fun p => if p.1 = id then (id, e) else p)

def terase (tbl : List (Nat × CEntry)) (id : Nat) : List (Nat × CEntry) :=
  tbl.filter (fun p => p.1 ≠ id)

/-- `vmemcache_entry_release` (vmemcache.c:494-512): drop one reference;
at zero, free the extent chain back to the heap and `Free` the entry
struct. -/
def vmemcache_entry_release (st : CacheSt) (id : Nat) : CacheSt :=
  match tget st.tbl id with
  | none => st
  | some e =>
    if e.refcount = 1 then
      { st with heap := vmcache_free st.heap e.extents,
                tbl := terase st.tbl id }
    else
      { st with tbl := tset st.tbl id { e with refcount := e.refcount - 1 } }

/-- `repl_p_insert` through the ops table: `repl_p_none_insert`
(vmemcache_repl.c:316-322) does nothing and returns NULL, so `p_entry`
stays null and no reference is taken; `repl_p_lru_insert`
(vmemcache_repl.c:383-407) acquires the entry and appends it at the tail
of the LRU queue. -/
def repl_p_insert (st : CacheSt) (id : Nat) : CacheSt :=
  if st.repl_p = 0 then st
  else
    match tget st.tbl id with
    | none => st
    | some e =>
      { st with
        tbl := tset st.tbl id
          { e with refcount := e.refcount + 1, p_entry := true },
        lruQ := st.lruQ ++ [id] }

/-- The do-while eviction loop of `vmemcache_evict` for `key == NULL`
(vmemcache.c:611-625): `repl_p_lru_evict(head, NULL)` pops the queue head
(removing its node and nulling `ptr_entry`); the begin-evict CAS skips an
entry already being evicted and retries with the next head.  Returns the
victim (its `evicting` flag now set) or `none` when the queue runs dry
(`repl_p_evict` returned NULL). -/
def evictNullLoop : Nat → CacheSt → Option Nat × CacheSt
  | 0, st => (none, st)
  | fuel + 1, st =>
    match st.lruQ with
    | [] => (none, st)
    | h :: t =>
      match tget st.tbl h with
      | none => (none, st)
      | some e =>
        let st1 := { st with
          lruQ := t,
          tbl := tset st.tbl h { e with p_entry := false } }
        if e.evicting then evictNullLoop fuel st1
        else
          (some h, { st1 with
            tbl := tset st.tbl h
              { e with p_entry := false, evicting := true } })

/-- `vmemcache_evict(cache, NULL, 0)` (vmemcache.c:602-686, null-key
path).  The none policy's `repl_p_none_evict` returns NULL, so the call
fails immediately — WITHOUT setting `errno` (vmemcache.c:617-621 prints
and returns -1).  Under LRU, the victim's replacement reference is
released, then `vmcache_index_remove` deletes the key from the critnib
and releases the index reference, freeing the entry and its extents. -/
def vmemcache_evict_null (st : CacheSt) : Int × CacheSt :=
  if st.repl_p = 0 then (-1, st)
  else
    match evictNullLoop (st.lruQ.length + 1) st with
    | (none, st1) => (-1, st1)
    | (some id, st1) =>
      match tget st1.tbl id with
      | none => (-1, st1)
      | some e =>
        let st2 := vmemcache_entry_release st1 id
        match critnib_remove st2.root (fullKey e.ksize e.key) with
        | (none, root2) =>
          let st3 := { st2 with root := root2, errno := EINVAL }
          (-1, vmemcache_entry_release st3 id)
        | (some _, root2) =>
          (0, vmemcache_entry_release { st2 with root := root2 } id)

/-- The allocate/evict/retry loop of `vmemcache_put`
(vmemcache.c:386-404): while bytes remain, ask the heap; on a zero grant
run `vmemcache_evict(NULL)`, and when that fails translate `ESRCH` to
`ENOSPC` (vmemcache.c:396-399) and fail.  The Bool is true on success;
the returned chain is the entry's extent list so far (freed by the
caller on failure). -/
def putAllocLoop : Nat → CacheSt → Nat → List Nat → Option Nat →
    Bool × CacheSt × List Nat
  | 0, st, _, chain, _ => (false, st, chain)
  | fuel + 1, st, left, chain, small =>
    if left = 0 then (true, st, chain)
    else
      let r := vmcache_alloc st.heap left chain small
      let out := r.1
      let ret := r.2
      let st1 := { st with heap := out.st }
      if ret = 0 then
        match vmemcache_evict_null st1 with
        | (0, st2) => putAllocLoop fuel st2 left out.chain out.small
        | (_, st2) =>
          (false,
            if st2.errno = ESRCH then { st2 with errno := ENOSPC } else st2,
            out.chain)
      else putAllocLoop fuel st1 (left - min ret left) out.chain out.small

/-- `vmemcache_put` (vmemcache.c:356-429) for a cache with `index_only`,
`no_alloc` and `no_memcpy` all off and no callbacks installed.  `value`
is a byte oracle for the new value's contents, consumed by the
satisfy-get path; the in-flight request record is threaded alongside the
cache.  Steps, in source order: satisfy an armed in-flight get; reject
`value_size > cache->size` with `ENOSPC`; allocate (evicting as needed);
insert into the critnib (failure puts the `critnib_set` error — EEXIST
for a duplicate — in `errno`, frees the new extents and entry, and
returns -1); finally register with the replacement policy. -/
def vmemcache_put (st : CacheSt) (req : GetReqState) (ksize : Nat)
    (key : List Nat) (value : Nat → Nat) (value_size : Nat) :
    Int × CacheSt × GetReqState :=
  let req1 := if req.keyArmed then
      vmemcache_put_satisfy_get req ksize key value value_size
    else req
  if st.size < value_size then
    (-1, { st with errno := ENOSPC }, req1)
  else
    let r := putAllocLoop (value_size + st.tbl.length + 1) st value_size
      [] none
    match r with
    | (false, st1, chain) =>
      (-1, { st1 with heap := vmcache_free st1.heap chain }, req1)
    | (true, st1, chain) =>
      let newId := st1.nextId
      match critnib_set st1.root newId (fullKey ksize key) with
      | (0, root1) =>
        let e : CEntry := { ksize := ksize, key := key,
                            vsize := value_size, extents := chain,
                            refcount := 1, evicting := false,
                            p_entry := false }
        let st2 := { st1 with
          root := root1,
          tbl := st1.tbl ++ [(newId, e)],
          nextId := newId + 1 }
        (0, repl_p_insert st2 newId, req1)
      | (err, _) =>
        (-1, { st1 with
          heap := vmcache_free st1.heap chain,
          errno := err }, req1)

/-- The miss path of `vmemcache_get` (vmemcache.c:533-554) composed with
an `on_miss` callback that calls `vmemcache_put` with the same key, as
the bench/examples do: arm `get_req` with the caller's buffer, run the
put, and afterwards return `get_req.vbufsize` if the request was
satisfied, else fall through to the `ENOENT` miss return. -/
def vmemcache_get_miss_with_put (st : CacheSt) (ksize : Nat)
    (key : List Nat) (vbufPresent : Bool) (vbufsize offset : Nat)
    (vsizeWanted : Bool) (value : Nat → Nat) (value_size : Nat) :
    Int × CacheSt × GetReqState :=
  let req : GetReqState := { keyArmed := true, ksize := ksize,
                             keyBytes := key, vbufPresent := vbufPresent,
                             vbufsize := vbufsize, offset := offset,
                             vsizeWanted := vsizeWanted, copied := [],
                             vsizeOut := none }
  let r := vmemcache_put st req ksize key value value_size
  let st1 := r.2.1
  let req1 := r.2.2
  if req1.keyArmed then
    (-1, { st1 with errno := ENOENT }, { req1 with keyArmed := false })
  else
    ((req1.vbufsize : Int), st1, req1)

/-! ## Theorems -/

theorem pvLoop_chainContents (sizes : List Nat) :
    ∀ (w : List Nat) (L off left : Nat), sizes.sum ≤ w.length →
      pvLoop (chainContents sizes w) L off left
        = ((w.take sizes.sum).drop off).take (min left L) := by
  induction sizes with
  | nil =>
    intro w L off left _
    simp [chainContents, pvLoop]
  | cons s rest ih =>
    intro w L off left hsum
    have hsums : s + rest.sum ≤ w.length := by simpa [List.sum_cons] using hsum
    have hrest : rest.sum ≤ (w.drop s).length := by
      simp only [List.length_drop]; omega
    have hlen : (w.take s).length = s := by
      simp only [List.length_take]; omega
    rw [List.sum_cons]
    simp only [chainContents, pvLoop, hlen]
    by_cases hskip : 0 < off ∧ s < off
    · rw [if_pos hskip]
      rw [ih (w.drop s) L (off - s) left hrest]
      congr 1
      have h1 : List.drop s (List.take (s + rest.sum) w)
          = List.take rest.sum (List.drop s w) := by
        rw [List.drop_take]; congr 1; omega
      calc ((w.drop s).take rest.sum).drop (off - s)
          = ((w.take (s + rest.sum)).drop s).drop (off - s) := by rw [h1]
        _ = (w.take (s + rest.sum)).drop (s + (off - s)) := by
            rw [List.drop_drop]
        _ = (w.take (s + rest.sum)).drop off := by congr 1; omega
    · rw [if_neg hskip]
      have hoffs : off ≤ s := by
        by_contra hc
        exact hskip ⟨by omega, by omega⟩
      have hpiece : ((w.take s).drop off).take (min (s - off) (min left L))
          = (w.drop off).take (min (s - off) (min left L)) := by
        rw [List.drop_take, List.take_take]
        congr 1
        omega
      have hrhs : ((w.take (s + rest.sum)).drop off).take (min left L)
          = (w.drop off).take (min (min left L) (s + rest.sum - off)) := by
        rw [List.drop_take, List.take_take]
      by_cases hstop : L - min (s - off) (min left L) = 0 ∨
          left - min (s - off) (min left L) = 0
      · rw [if_pos hstop, hpiece, hrhs]
        congr 1
        omega
      · rw [if_neg hstop, hpiece, hrhs]
        rw [ih (w.drop s) (L - min (s - off) (min left L)) 0
          (left - min (s - off) (min left L)) hrest]
        rw [List.drop_zero, List.take_take]
        have hlval : min (s - off) (min left L) = s - off := by omega
        rw [hlval]
        have hmm : min (left - (s - off)) (L - (s - off)) ⊓ rest.sum
            = min (min left L - (s - off)) rest.sum := by omega
        rw [hmm]
        have harith : min (min left L) (s + rest.sum - off)
            = (s - off) + min (min left L - (s - off)) rest.sum := by omega
        rw [harith, List.take_add, List.drop_drop]
        have hds : off + (s - off) = s := by omega
        rw [hds]

/-- C1.  Offset slicing on the get hit path: for a value `v` of size `N`
stored by `vmemcache_populate_extents` into any extent chain large enough
to hold it, a `get(k, buf, L, off, out)` with `0 ≤ off ≤ N` copies exactly
`min(L, N − off)` bytes, those bytes are `v[off .. off+ret)`, and `*out`
is set to `N` (for `off = N` the copy is empty).  `junk` is the
uninitialised memory covering the rest of the chain. -/
theorem c1_get_offset_slicing (sizes v junk : List Nat) (off L : Nat)
    (hsum : v.length ≤ sizes.sum)
    (hjunk : sizes.sum ≤ v.length + junk.length)
    (hoff : off ≤ v.length) :
    (vmemcache_get_hit (vmemcache_populate_extents sizes v junk) L off).1
        = (v.drop off).take (min L (v.length - off)) ∧
    (vmemcache_get_hit (vmemcache_populate_extents sizes v junk) L off).1.length
        = min L (v.length - off) ∧
    (vmemcache_get_hit (vmemcache_populate_extents sizes v junk) L off).2
        = v.length := by
  have hw : sizes.sum ≤ (v ++ junk).length := by
    simp only [List.length_append]; omega
  have hmain : vmemcache_populate_value false L off
      (vmemcache_populate_extents sizes v junk)
      = (v.drop off).take (min L (v.length - off)) := by
    unfold vmemcache_populate_extents vmemcache_populate_value
    by_cases hend : v.length ≤ off
    · have hoffN : off = v.length := le_antisymm hoff hend
      simp [hend, hoffN]
    · simp only [Bool.false_eq_true, false_or, if_neg hend]
      rw [pvLoop_chainContents sizes (v ++ junk) L off (v.length - off) hw]
      rw [Nat.min_comm (v.length - off) L]
      rw [List.drop_take, List.take_take]
      have hmin : min (min L (v.length - off)) (sizes.sum - off)
          = min L (v.length - off) := by omega
      rw [hmin]
      rw [List.drop_append_eq_append_drop]
      have h0 : off - v.length = 0 := by omega
      rw [h0, List.drop_zero, List.take_append_eq_append_take]
      have h1 : min L (v.length - off) - (v.drop off).length = 0 := by
        simp only [List.length_drop]; omega
      rw [h1, List.take_zero, List.append_nil]
  refine ⟨hmain, ?_, rfl⟩
  show (vmemcache_populate_value false L off
    (vmemcache_populate_extents sizes v junk)).length = _
  rw [hmain]
  simp only [List.length_take, List.length_drop]
  omega

theorem lifeInv_start : lifeInv entryLifeStart := by
  constructor <;> simp [entryLifeStart, lifeInv]

theorem lifeInv_step (s : EntryLife) (op : LifeOp) (h : lifeInv s) :
    lifeInv (applyLife s op) := by
  obtain ⟨rc, idx, rep, us, fr⟩ := s
  obtain ⟨h1, h2⟩ := h
  cases op <;> cases idx <;> cases rep <;> cases fr <;>
    simp_all [applyLife, entryLifeRelease, lifeInv] <;>
    split_ifs <;> simp_all <;> omega

/-- C6.  Entry-lifecycle invariant: starting from a fresh entry struct, any
sequence of the source's reference operations maintains that a non-freed
entry's refcount equals the number of live references (index, policy,
in-flight lookups); hence `refcount ≥ 1` holds while the entry is indexed,
the entry is never freed while indexed, and the free (triggered exactly by
a release observing previous value 1) happens only when no reference is
left. -/
theorem c6_refcount_lifecycle_inv (ops : List LifeOp) :
    lifeInv (runLife ops) ∧
    ((runLife ops).indexed → 1 ≤ (runLife ops).refcount ∧ ¬(runLife ops).freed) ∧
    ((runLife ops).freed → (runLife ops).refcount = 0) := by
  have hinv : lifeInv (runLife ops) := by
    unfold runLife
    induction ops using List.reverseRecOn with
    | nil => exact lifeInv_start
    | append_singleton l op ih =>
      rw [List.foldl_append, List.foldl_cons, List.foldl_nil]
      exact lifeInv_step _ op ih
  refine ⟨hinv, ?_, fun hf => (hinv.2 hf).1⟩
  intro hidx
  obtain ⟨h1, h2⟩ := hinv
  constructor
  · by_cases hf : (runLife ops).freed
    · exact absurd hidx (by simpa using (h2 hf).2.2.1)
    · have := h1 hf
      simp [hidx] at this
      omega
  · intro hf
    exact absurd hidx (by simpa using (h2 hf).2.2.1)

theorem c1_get_offset_slicing_witness :
    (([1, 2, 3, 4, 5, 6] : List Nat).length ≤ ([4, 4] : List Nat).sum ∧
      ([4, 4] : List Nat).sum ≤ ([1, 2, 3, 4, 5, 6] : List Nat).length
        + ([9, 9] : List Nat).length ∧
      1 ≤ ([1, 2, 3, 4, 5, 6] : List Nat).length) ∧
    (vmemcache_get_hit
        (vmemcache_populate_extents [4, 4] [1, 2, 3, 4, 5, 6] [9, 9]) 3 1).1
      = (([1, 2, 3, 4, 5, 6] : List Nat).drop 1).take
          (min 3 (([1, 2, 3, 4, 5, 6] : List Nat).length - 1)) :=
  ⟨⟨by decide, by decide, by decide⟩,
    (c1_get_offset_slicing [4, 4] [1, 2, 3, 4, 5, 6] [9, 9] 1 3
      (by decide) (by decide) (by decide)).1⟩

/-- C9 (counterexample): on a cache already armed by `vmemcache_add`
(`cache->ready == 1`), the configuration setters do return -1, but they set
`errno` to `EALREADY` (vmemcache.c:94, 113, 143), not `EINVAL` as the
claim states. -/
theorem c9_setters_after_add_ealready_concrete :
    (vmemcache_set_size ⟨true, VMEMCACHE_MIN_POOL, 256, 1, 0⟩
        (2 * VMEMCACHE_MIN_POOL)).1 = -1 ∧
    (vmemcache_set_size ⟨true, VMEMCACHE_MIN_POOL, 256, 1, 0⟩
        (2 * VMEMCACHE_MIN_POOL)).2.errno = EALREADY ∧
    (vmemcache_set_extent_size ⟨true, VMEMCACHE_MIN_POOL, 256, 1, 0⟩
        512).2.errno = EALREADY ∧
    (vmemcache_set_eviction_policy ⟨true, VMEMCACHE_MIN_POOL, 256, 1, 0⟩
        0).2.errno = EALREADY ∧
    EALREADY ≠ EINVAL := by
  refine ⟨rfl, rfl, rfl, rfl, by decide⟩

/-- C9 (amended).  Once a cache is armed, `vmemcache_set_size`,
`vmemcache_set_extent_size` and `vmemcache_set_eviction_policy` fail
without modifying any configuration field, returning -1 with
`errno == EALREADY`. -/
theorem c9_setters_after_add_fail_ealready (c : VMEMcacheConfig)
    (n e p : Nat) (h : c.ready = true) :
    vmemcache_set_size c n = (-1, { c with errno := EALREADY }) ∧
    vmemcache_set_extent_size c e = (-1, { c with errno := EALREADY }) ∧
    vmemcache_set_eviction_policy c p = (-1, { c with errno := EALREADY }) := by
  unfold vmemcache_set_size vmemcache_set_extent_size
    vmemcache_set_eviction_policy
  simp [h]

theorem c9_setters_after_add_fail_ealready_witness :
    (⟨true, 0, 0, 0, 0⟩ : VMEMcacheConfig).ready = true ∧
    (vmemcache_set_size ⟨true, 0, 0, 0, 0⟩ 7
        = (-1, { (⟨true, 0, 0, 0, 0⟩ : VMEMcacheConfig) with errno := EALREADY }) ∧
      vmemcache_set_extent_size ⟨true, 0, 0, 0, 0⟩ 7
        = (-1, { (⟨true, 0, 0, 0, 0⟩ : VMEMcacheConfig) with errno := EALREADY }) ∧
      vmemcache_set_eviction_policy ⟨true, 0, 0, 0, 0⟩ 7
        = (-1, { (⟨true, 0, 0, 0, 0⟩ : VMEMcacheConfig) with errno := EALREADY })) :=
  ⟨rfl, c9_setters_after_add_fail_ealready ⟨true, 0, 0, 0, 0⟩ 7 7 7 rfl⟩

theorem firstDiff_self (l : List Nat) : firstDiff l l = l.length := by
  induction l with
  | nil => simp [firstDiff]
  | cons a as ih => simp [firstDiff, ih]

theorem getGo_descend1 (key : List Nat) :
    ∀ (sz : Nat) (n : CNode), sizeOf n ≤ sz →
      ∀ i, getGo key n = some (i, key) → descend1 key n = .leaf i key := by
  intro sz
  induction sz with
  | zero =>
    intro n hn
    exfalso
    cases n <;> simp at hn
  | succ sz ih =>
    intro n hn i hget
    cases n with
    | leaf j k =>
      simp [getGo] at hget
      obtain ⟨h1, h2⟩ := hget
      subst h1; subst h2
      simp [descend1]
    | node ch byte bit =>
      by_cases hb : key.length ≤ byte
      · simp [getGo, hb] at hget
      · rw [getGo] at hget
        rw [if_neg hb] at hget
        simp only [descend1]
        rw [if_pos (by omega : byte < key.length)]
        rcases hcc : childAt ch (sliceIndex (key.getD byte 0) bit) with _ | c
        · rw [hcc] at hget
          simp at hget
        · rw [hcc] at hget
          have hget2 : getGo key c = some (i, key) := hget
          have hsz : sizeOf c ≤ sz := by
            have h1 := childAt_sizeOf_le ch (sliceIndex (key.getD byte 0) bit)
            rw [hcc] at h1
            simp at h1 hn
            omega
          exact ih c hsz i hget2

/-- In any tree in which `critnib_get` finds the key, `critnib_set` of that
same key returns `EEXIST` and leaves the tree untouched (the first descent
reaches the equal leaf, the divergence scan exhausts the common length,
and critnib.c:220-225 returns before any mutation). -/
theorem critnib_get_set_eexist (root : Option CNode) (key : List Nat)
    (id newId : Nat) (h : critnib_get root key = some id) :
    critnib_set root newId key = (EEXIST, root) := by
  match root with
  | none => simp [critnib_get] at h
  | some n =>
    simp only [critnib_get] at h
    rcases hg : getGo key n with _ | ⟨i, k⟩
    · rw [hg] at h; simp at h
    · rw [hg] at h
      by_cases hk : k = key
      · subst hk
        have hd := getGo_descend1 k (sizeOf n) n le_rfl i hg
        simp only [critnib_set]
        rw [hd]
        simp [firstDiff_self]
      · simp [hk] at h

theorem encode8_inj (m n : Nat) (hm : m < 2 ^ 64) (hn : n < 2 ^ 64)
    (h : encode8 m = encode8 n) : m = n := by
  simp [encode8] at h
  omega

theorem firstDiff_lt_of_ne (a : List Nat) :
    ∀ (b x y : List Nat), a.length = b.length → a ≠ b →
      firstDiff (a ++ x) (b ++ y) < a.length := by
  induction a with
  | nil =>
    intro b x y hl hne
    cases b with
    | nil => exact absurd rfl hne
    | cons q qs => simp at hl
  | cons p ps ih =>
    intro b x y hl hne
    cases b with
    | nil => simp at hl
    | cons q qs =>
      by_cases hpq : p = q
      · subst hpq
        have hne' : ps ≠ qs := fun hh => hne (by rw [hh])
        have hr := ih qs x y (by simpa using hl) hne'
        have heq : firstDiff ((p :: ps) ++ x) ((p :: qs) ++ y)
            = firstDiff (ps ++ x) (qs ++ y) + 1 := by
          simp [firstDiff]
        rw [heq]
        simp only [List.length_cons]
        omega
      · simp [List.cons_append, firstDiff, hpq]

/-- C5 (amended).  The index key embeds the 8-byte `ksize` field before the
key bytes, so two user keys with different sizes (in particular one a
proper prefix of the other) always diverge within the first 8 indexed
bytes: inserting the second into a cache holding the first succeeds
(`critnib_set` returns 0, not `EEXIST`). -/
theorem c5_distinct_ksize_insert_ok (n1 n2 id0 id1 : Nat) (k1 k2 : List Nat)
    (h1 : n1 < 2 ^ 64) (h2 : n2 < 2 ^ 64) (hne : n1 ≠ n2) :
    (critnib_set (some (.leaf id0 (fullKey n1 k1))) id1 (fullKey n2 k2)).1
      = 0 := by
  have henc : encode8 n1 ≠ encode8 n2 := fun h => hne (encode8_inj _ _ h1 h2 h)
  have hdiff : firstDiff (fullKey n1 k1) (fullKey n2 k2) < 8 := by
    have hfd := firstDiff_lt_of_ne (encode8 n1) (encode8 n2) k1 k2
      (by simp [encode8]) henc
    simpa [fullKey, encode8] using hfd
  have hlen1 : (fullKey n1 k1).length = 8 + k1.length := by
    simp [fullKey, encode8]
    omega
  have hlen2 : (fullKey n2 k2).length = 8 + k2.length := by
    simp [fullKey, encode8]
    omega
  have hcond : ¬ (min (fullKey n1 k1).length (fullKey n2 k2).length
      ≤ firstDiff (fullKey n1 k1) (fullKey n2 k2)) := by
    rw [hlen1, hlen2]
    omega
  simp [critnib_set, descend1, hcond]

theorem c5_distinct_ksize_insert_ok_witness :
    ((1 : Nat) < 2 ^ 64 ∧ (2 : Nat) < 2 ^ 64 ∧ (1 : Nat) ≠ 2) ∧
    (critnib_set (some (.leaf 0 (fullKey 1 [97]))) 1 (fullKey 2 [97, 98])).1
      = 0 :=
  ⟨⟨by norm_num, by norm_num, by norm_num⟩,
    c5_distinct_ksize_insert_ok 1 2 0 1 [97] [97, 98]
      (by norm_num) (by norm_num) (by norm_num)⟩

/-- C5 (counterexample).  The cache holds key `"a"` (ksize 1); a put of key
`"ab"` (ksize 2), whose bytes have the first key as a proper prefix, is
NOT rejected: `critnib_set` returns 0 (success, not `EEXIST`), and
afterwards both keys are found in the index. -/
theorem c5_pref_key_insert_succeeds_concrete :
    (critnib_set (some (.leaf 0 (fullKey 1 [97]))) 1 (fullKey 2 [97, 98])).1
        = 0 ∧
    (0 : Nat) ≠ EEXIST ∧
    critnib_get (critnib_set (some (.leaf 0 (fullKey 1 [97]))) 1
        (fullKey 2 [97, 98])).2 (fullKey 1 [97]) = some 0 ∧
    critnib_get (critnib_set (some (.leaf 0 (fullKey 1 [97]))) 1
        (fullKey 2 [97, 98])).2 (fullKey 2 [97, 98]) = some 1 := by
  have hset : critnib_set (some (.leaf 0 (fullKey 1 [97]))) 1
      (fullKey 2 [97, 98])
      = (0, insert2 1 (fullKey 2 [97, 98]) (fullKey 1 [97]) 0 0
          (some (.leaf 0 (fullKey 1 [97])))) := by
    simp [critnib_set, descend1, fullKey, encode8, firstDiff,
      mssbNibbleShift, log2w]
  have hins : insert2 1 (fullKey 2 [97, 98]) (fullKey 1 [97]) 0 0
      (some (.leaf 0 (fullKey 1 [97])))
      = mkSplitNode (fullKey 1 [97]) (fullKey 2 [97, 98]) 1 0 0
          (.leaf 0 (fullKey 1 [97])) := by
    simp [insert2]
  rw [hset, hins]
  refine ⟨rfl, by norm_num [EEXIST], ?_, ?_⟩ <;>
    simp [mkSplitNode, fullKey, encode8, sliceIndex, critnib_get, getGo,
      childAt, List.replicate, List.set]

theorem roundup_mod (x y : Nat) : roundup x y % y = 0 := by
  unfold roundup
  rcases Nat.eq_zero_or_pos y with hy | hy
  · simp [hy]
  · simp [Nat.mul_mod_left]

theorem heapFreeBlock_extent (st : HeapSt) (a : Nat) :
    (heapFreeBlock st a).extent_size = st.extent_size := by
  unfold heapFreeBlock
  rcases h : findBlock st.blocks a with _ | ⟨p, c, s⟩ <;> rfl

theorem allocStep_extent (it : AllocIter) :
    (allocStep it).out.st.extent_size = it.st.extent_size := by
  unfold allocStep
  split
  · rfl
  · split
    · rfl
    · dsimp only
      repeat' split
      all_goals simp [AllocStepRes.out, heapFreeBlock_extent]

theorem out_ite_last_more (c : Prop) [Decidable c] (x : AllocIter) :
    (if c then AllocStepRes.last x else AllocStepRes.more x).out = x := by
  split <;> rfl

theorem allocStep_trace_split (it : AllocIter) (pt : Nat × Bool)
    (hmem : pt ∈ (allocStep it).out.trace) (hsp : pt.2 = true) :
    pt ∈ it.trace ∨ pt.1 % it.st.extent_size = 0 := by
  unfold allocStep at hmem
  split at hmem
  · exact Or.inl hmem
  · split at hmem
    · exact Or.inl hmem
    · rename_i p c s heq
      dsimp only at hmem
      rw [out_ite_last_more] at hmem
      dsimp only at hmem
      rw [List.mem_append] at hmem
      rcases hmem with hmem | hmem
      · exact Or.inl hmem
      · simp only [List.mem_singleton] at hmem
        subst hmem
        by_cases hds : roundup (it.toAlloc + HFER_SIZE) it.st.extent_size
            + it.st.extent_size ≤ c.total
        · simp only [hds, decide_eq_true_eq, if_pos] at *
          exact Or.inr (roundup_mod _ _)
        · refine Or.inr ?_
          have hd : decide (roundup (it.toAlloc + HFER_SIZE) it.st.extent_size
              + it.st.extent_size ≤ c.total) = false := by
            simpa using hds
          rw [hd] at hsp
          simp at hsp

theorem allocLoop_trace_split (E : Nat) :
    ∀ (fuel : Nat) (it : AllocIter), it.st.extent_size = E →
      (∀ pt ∈ it.trace, pt.2 = true → pt.1 % E = 0) →
      ∀ pt ∈ (allocLoop fuel it).trace, pt.2 = true → pt.1 % E = 0 := by
  intro fuel
  induction fuel with
  | zero =>
    intro it hE hpre pt hm hs
    exact hpre pt hm hs
  | succ fuel ih =>
    intro it hE hpre pt hm hs
    have hstepTrace : ∀ q ∈ (allocStep it).out.trace, q.2 = true →
        q.1 % E = 0 := by
      intro q hq hqs
      rcases allocStep_trace_split it q hq hqs with h | h
      · exact hpre q h hqs
      · rw [hE] at h; exact h
    have hstepE : (allocStep it).out.st.extent_size = E := by
      rw [allocStep_extent]; exact hE
    unfold allocLoop at hm
    rcases hstep : allocStep it with it1 | it1 | it1 <;> rw [hstep] at hm
    · exact hstepTrace pt (by rw [hstep] at hstepTrace ⊢; exact hm) hs
    · rw [hstep] at hstepTrace
      exact hstepTrace pt hm hs
    · rw [hstep] at hstepTrace hstepE
      exact ih it1 hstepE hstepTrace pt hm hs

/-- C8 (amended).  The allocator's rounding rule: every piece carved by a
split has TOTAL size `roundup(to_allocate + HFER_SIZE, extent_size)`, a
multiple of the extent size (so it is the piece's size including its
header and footer — not the size minus header+footer — that is the
multiple); a piece that consumes a whole free extent is handed out
unrounded. -/
theorem c8_split_total_multiple_of_extent (st : HeapSt) (size : Nat)
    (chain : List Nat) (small : Option Nat) :
    ∀ pt ∈ ((vmcache_alloc st size chain small).1).trace, pt.2 = true →
      pt.1 % st.extent_size = 0 := by
  intro pt hm hs
  unfold vmcache_alloc at hm
  simp only at hm
  exact allocLoop_trace_split st.extent_size (st.freeList.length + 1)
    ⟨st, size, chain, small, 0, 0, []⟩ rfl (by simp) pt hm hs

/-- C8 counterexample.  From a fresh 2048-byte heap with extent size 256,
an allocation of 100 bytes is served in full by a single split piece of
TOTAL size `roundup(100 + 32, 256) = 256`; its size minus the header and
footer is `256 - 32 = 224`, which is NOT a multiple of the extent size —
the claim's rounding rule `(piece size - header+footer) % E == 0` fails on
the very first allocation. -/
theorem c8_data_minus_hfer_not_multiple_concrete :
    (vmcache_alloc (vmcache_heap_create 2048 256) 100 [] none).2 = 100 ∧
    ((vmcache_alloc (vmcache_heap_create 2048 256) 100 [] none).1).chain
      = [0] ∧
    blockAtAddr
      (((vmcache_alloc (vmcache_heap_create 2048 256) 100 [] none).1).st).blocks
      0 = some ⟨256, false⟩ ∧
    (256 - HFER_SIZE) % 256 ≠ 0 := by
  refine ⟨rfl, rfl, rfl, by decide⟩

/-- Witness for `c8_split_total_multiple_of_extent`: on the same concrete
allocation the single piece handed out is recorded in the trace as
`(256, true)` — carved by a split — and the theorem yields
`256 % 256 = 0`. -/
theorem c8_split_total_multiple_of_extent_witness :
    (256, true) ∈
      ((vmcache_alloc (vmcache_heap_create 2048 256) 100 [] none).1).trace ∧
    256 % (vmcache_heap_create 2048 256).extent_size = 0 := by
  refine ⟨by decide, ?_⟩
  exact c8_split_total_multiple_of_extent (vmcache_heap_create 2048 256)
    100 [] none (256, true) (by decide) rfl

/-! ## Toolkit lemmas -/

theorem sumTot_append (xs ys : List HBlock) :
    sumTot (xs ++ ys) = sumTot xs + sumTot ys := by
  simp [sumTot]

theorem sumTot_cons (b : HBlock) (bs : List HBlock) :
    sumTot (b :: bs) = b.total + sumTot bs := by
  simp [sumTot]

theorem allocData_append (xs ys : List HBlock) :
    allocData (xs ++ ys) = allocData xs + allocData ys := by
  simp [allocData]

theorem allocData_cons (b : HBlock) (bs : List HBlock) :
    allocData (b :: bs)
      = (if b.free then 0 else b.total - HFER_SIZE) + allocData bs := by
  simp [allocData]

theorem freeA_append (base : Nat) (xs ys : List HBlock) :
    freeA base (xs ++ ys) = freeA base xs ++ freeA (base + sumTot xs) ys := by
  induction xs generalizing base with
  | nil => simp [freeA, sumTot]
  | cons b xs ih =>
    simp only [List.cons_append, freeA, sumTot_cons, List.append_eq]
    rw [ih (base + b.total)]
    have h : base + b.total + sumTot xs = base + (b.total + sumTot xs) := by
      omega
    rw [h]
    split <;> simp

theorem freeA_ge (bs : List HBlock) :
    ∀ (base x : Nat), x ∈ freeA base bs → base ≤ x := by
  induction bs with
  | nil => intro base x h; simp [freeA] at h
  | cons b bs ih =>
    intro base x h
    unfold freeA at h
    split at h
    · rcases List.mem_cons.mp h with rfl | h
      · exact le_refl _
      · exact le_trans (Nat.le_add_right _ _) (ih _ _ h)
    · exact le_trans (Nat.le_add_right _ _) (ih _ _ h)

theorem freeA_lt (bs : List HBlock) (hpos : ∀ b ∈ bs, 0 < b.total) :
    ∀ (base x : Nat), x ∈ freeA base bs → x < base + sumTot bs := by
  induction bs with
  | nil => intro base x h; simp [freeA] at h
  | cons b bs ih =>
    intro base x h
    have hb : 0 < b.total := hpos b (by simp)
    have hpos' : ∀ c ∈ bs, 0 < c.total := fun c hc => hpos c (by simp [hc])
    unfold freeA at h
    rw [sumTot_cons]
    split at h
    · rcases List.mem_cons.mp h with rfl | h
      · omega
      · have := ih hpos' _ _ h; omega
    · have := ih hpos' _ _ h; omega

theorem freeA_nodup (bs : List HBlock) (hpos : ∀ b ∈ bs, 0 < b.total) :
    ∀ base, (freeA base bs).Nodup := by
  induction bs with
  | nil => intro base; simp [freeA]
  | cons b bs ih =>
    intro base
    have hb : 0 < b.total := hpos b (by simp)
    have hpos' : ∀ c ∈ bs, 0 < c.total := fun c hc => hpos c (by simp [hc])
    unfold freeA
    split
    · refine List.nodup_cons.mpr ⟨?_, ih hpos' _⟩
      intro hmem
      have := freeA_ge bs _ _ hmem
      omega
    · exact ih hpos' _

theorem findBlock_decomp (bs : List HBlock) :
    ∀ (a : Nat) (p : List HBlock) (c : HBlock) (s : List HBlock),
      findBlock bs a = some (p, c, s) → bs = p ++ c :: s ∧ sumTot p = a := by
  induction bs with
  | nil => intro a p c s h; simp [findBlock] at h
  | cons b bs ih =>
    intro a p c s h
    unfold findBlock at h
    split at h
    · rename_i ha
      simp only [Option.some.injEq, Prod.mk.injEq] at h
      obtain ⟨rfl, rfl, rfl⟩ := h
      subst ha
      simp [sumTot]
    · split at h
      · simp at h
      · rename_i ha hlt
        rcases hfb : findBlock bs (a - b.total) with _ | ⟨q, d, t⟩ <;>
          rw [hfb] at h
        · simp at h
        · simp only [Option.some.injEq, Prod.mk.injEq] at h
          obtain ⟨rfl, rfl, rfl⟩ := h
          obtain ⟨hbs, hsum⟩ := ih _ _ _ _ hfb
          constructor
          · simp [hbs]
          · rw [sumTot_cons, hsum]; omega

theorem findBlock_cons_shift (b : HBlock) (l : List HBlock) (a : Nat)
    (hb : 0 < b.total + a) :
    findBlock (b :: l) (b.total + a)
      = (findBlock l a).map (fun r => (b :: r.1, r.2.1, r.2.2)) := by
  rcases hh : findBlock l a with _ | ⟨p, c, s⟩ <;>
    · simp only [findBlock]
      rw [if_neg (by omega), if_neg (by omega)]
      have h2 : b.total + a - b.total = a := by omega
      rw [h2, hh]
      rfl

theorem findBlock_append_right (xs : List HBlock)
    (hpos : ∀ b ∈ xs, 0 < b.total) (ys : List HBlock) (off : Nat) :
    findBlock (xs ++ ys) (sumTot xs + off)
      = (findBlock ys off).map (fun r => (xs ++ r.1, r.2.1, r.2.2)) := by
  induction xs with
  | nil =>
    simp only [List.nil_append, sumTot, List.map_nil, List.sum_nil,
      Nat.zero_add]
    rcases h : findBlock ys off with _ | ⟨p, c, s⟩ <;> simp
  | cons b xs ih =>
    have hb : 0 < b.total := hpos b (by simp)
    have hpos' : ∀ c ∈ xs, 0 < c.total := fun c hc => hpos c (by simp [hc])
    have hsum : sumTot (b :: xs) + off = b.total + (sumTot xs + off) := by
      rw [sumTot_cons]; omega
    rw [hsum]
    simp only [List.cons_append]
    rw [findBlock_cons_shift b (xs ++ ys) _ (by omega), ih hpos']
    rcases h : findBlock ys off with _ | ⟨p, c, s⟩ <;> simp

theorem mem_freeA_findBlock (bs : List HBlock)
    (hpos : ∀ b ∈ bs, 0 < b.total) :
    ∀ (base a : Nat), a ∈ freeA base bs →
      ∃ p c s, findBlock bs (a - base) = some (p, c, s) ∧ c.free = true := by
  induction bs with
  | nil => intro base a h; simp [freeA] at h
  | cons b bs ih =>
    intro base a h
    have hb : 0 < b.total := hpos b (by simp)
    have hpos' : ∀ c ∈ bs, 0 < c.total := fun c hc => hpos c (by simp [hc])
    unfold freeA at h
    by_cases hf : b.free = true
    · rw [if_pos hf] at h
      rcases List.mem_cons.mp h with rfl | h
      · refine ⟨[], b, bs, ?_, hf⟩
        simp [findBlock]
      · have hge := freeA_ge bs _ _ h
        obtain ⟨p, c, s, hfb, hcf⟩ := ih hpos' _ _ h
        refine ⟨b :: p, c, s, ?_, hcf⟩
        unfold findBlock
        rw [if_neg (by omega), if_neg (by omega)]
        have : a - base - b.total = a - (base + b.total) := by omega
        rw [this, hfb]
    · rw [if_neg hf] at h
      have hge := freeA_ge bs _ _ h
      obtain ⟨p, c, s, hfb, hcf⟩ := ih hpos' _ _ h
      refine ⟨b :: p, c, s, ?_, hcf⟩
      unfold findBlock
      rw [if_neg (by omega), if_neg (by omega)]
      have : a - base - b.total = a - (base + b.total) := by omega
      rw [this, hfb]

theorem blockAtAddr_cons_shift (b : HBlock) (l : List HBlock) (a : Nat)
    (hb : 0 < b.total + a) :
    blockAtAddr (b :: l) (b.total + a) = blockAtAddr l a := by
  unfold blockAtAddr
  rw [findBlock_cons_shift b l a ?side]
  case side => omega
  rcases findBlock l a with _ | r <;> rfl

theorem blockAt_surgery (p : List HBlock) :
    ∀ (c : HBlock) (s X : List HBlock) (a : Nat) (d : HBlock),
      sumTot X = c.total → (∀ b ∈ X, 0 < b.total) →
      blockAtAddr (p ++ c :: s) a = some d → a ≠ sumTot p →
      blockAtAddr (p ++ X ++ s) a = some d := by
  induction p with
  | nil =>
    intro c s X a d hTot hX hd hne
    simp only [sumTot, List.map_nil, List.sum_nil] at hne
    simp only [List.nil_append] at hd ⊢
    unfold blockAtAddr findBlock at hd
    rw [if_neg hne] at hd
    split at hd
    · simp at hd
    · rename_i hlt
      rcases hfb : findBlock s (a - c.total) with _ | ⟨q, e, t⟩ <;>
        rw [hfb] at hd
      · simp at hd
      · simp only [Option.map_some] at hd
        have ha : a = sumTot X + (a - c.total) := by omega
        unfold blockAtAddr
        rw [ha, findBlock_append_right X hX s _, hfb]
        simpa using hd
  | cons b p ih =>
    intro c s X a d hTot hX hd hne
    simp only [List.cons_append] at hd ⊢
    by_cases ha0 : a = 0
    · subst ha0
      simp [blockAtAddr, findBlock] at hd ⊢
      exact hd
    · by_cases hlt : a < b.total
      · exfalso
        unfold blockAtAddr findBlock at hd
        rw [if_neg ha0, if_pos hlt] at hd
        simp at hd
      · have ha : a = b.total + (a - b.total) := by omega
        have hne2 : a - b.total ≠ sumTot p := by
          rw [sumTot_cons] at hne; omega
        rw [ha] at hd ⊢
        rw [blockAtAddr_cons_shift b _ _ (by omega)] at hd
        rw [blockAtAddr_cons_shift b _ _ (by omega)]
        exact ih c s X (a - b.total) d hTot hX hd hne2

theorem perm_erase_middle (fl L1 L2 : List Nat) (x : Nat) (hx : x ∉ L1)
    (hperm : fl.Perm (L1 ++ x :: L2)) : (fl.erase x).Perm (L1 ++ L2) := by
  have h1 := hperm.erase x
  have h2 : (L1 ++ x :: L2).erase x = L1 ++ L2 := by
    rw [List.erase_append_right _ hx, List.erase_cons_head]
  rwa [h2] at h1

theorem freeA_cons_free (base : Nat) (b : HBlock) (bs : List HBlock)
    (h : b.free = true) :
    freeA base (b :: bs) = base :: freeA (base + b.total) bs := by
  simp [freeA, h]

theorem freeA_cons_alloc (base : Nat) (b : HBlock) (bs : List HBlock)
    (h : b.free = false) :
    freeA base (b :: bs) = freeA (base + b.total) bs := by
  simp [freeA, h]

theorem chain_mid_build (p s : List HBlock) (m : HBlock)
    (hp : List.Chain' (fun x y => ¬(x.free = true ∧ y.free = true)) p)
    (hs : List.Chain' (fun x y => ¬(x.free = true ∧ y.free = true)) s)
    (hpl : ∀ x ∈ p.getLast?, x.free = false)
    (hsh : ∀ y ∈ s.head?, y.free = false) :
    List.Chain' (fun x y => ¬(x.free = true ∧ y.free = true))
      (p ++ m :: s) := by
  rw [List.chain'_append]
  refine ⟨hp, ?_, ?_⟩
  · rw [List.chain'_cons']
    refine ⟨?_, hs⟩
    intro y hy
    have := hsh y hy
    simp [this]
  · intro x hx y hy
    have := hpl x hx
    simp only [List.head?_cons, Option.mem_def, Option.some.injEq] at hy
    subst hy
    simp [this]

theorem chain_decomp (p s : List HBlock) (c : HBlock)
    (h : List.Chain' (fun x y => ¬(x.free = true ∧ y.free = true))
      (p ++ c :: s)) :
    List.Chain' (fun x y => ¬(x.free = true ∧ y.free = true)) p ∧
    List.Chain' (fun x y => ¬(x.free = true ∧ y.free = true)) (c :: s) ∧
    (∀ x ∈ p.getLast?, ¬(x.free = true ∧ c.free = true)) := by
  rw [List.chain'_append] at h
  refine ⟨h.1, h.2.1, fun x hx => h.2.2 x hx c ?_⟩
  simp

theorem freeWF_A (E R : Nat) (st : HeapSt) (p s : List HBlock) (c : HBlock)
    (hE : st.extent_size = E) (hHE : HFER_SIZE < E)
    (hpos : ∀ b ∈ st.blocks, HFER_SIZE < b.total)
    (hadj : noAdjFree st.blocks)
    (hperm : st.freeList.Perm (freeA 0 st.blocks))
    (hent : st.entries = st.freeList.length)
    (hsum : sumTot st.blocks = R)
    (hbs : st.blocks = p ++ c :: s) (hfree : c.free = false)
    (hpl : ∀ x ∈ p.getLast?, x.free = false)
    (hsh : ∀ y ∈ s.head?, y.free = false) :
    HeapWF0 E R
      { st with
        blocks := p ++ ⟨c.total, true⟩ :: s,
        freeList := sumTot p :: st.freeList,
        entries := st.entries + 1 } ∧
    allocData (p ++ ⟨c.total, true⟩ :: s) + (c.total - HFER_SIZE)
      = allocData st.blocks := by
  rw [hbs] at hpos hadj hperm hsum
  unfold noAdjFree at hadj
  obtain ⟨hadjP, hadjCS, _⟩ := chain_decomp p s c hadj
  have hadjS : List.Chain' (fun x y => ¬(x.free = true ∧ y.free = true)) s :=
    (List.chain'_cons'.mp hadjCS).2
  have hpermL : st.freeList.Perm
      (freeA 0 p ++ freeA (sumTot p + c.total) s) := by
    rw [freeA_append, Nat.zero_add, freeA_cons_alloc _ _ _ hfree] at hperm
    exact hperm
  refine ⟨⟨hE, hHE, ?_, ?_, ?_, ?_, ?_⟩, ?_⟩
  · intro x hx
    simp only [List.mem_append, List.mem_cons] at hx
    rcases hx with h | h | h
    · exact hpos x (by simp [h])
    · subst h
      exact hpos c (by simp)
    · exact hpos x (by simp [h])
  · exact chain_mid_build p s _ hadjP hadjS hpl hsh
  · show (sumTot p :: st.freeList).Perm _
    rw [freeA_append, Nat.zero_add, freeA_cons_free _ _ _ rfl]
    exact (hpermL.cons (sumTot p)).trans List.perm_middle.symm
  · simp [hent]
  · show sumTot (p ++ ⟨c.total, true⟩ :: s) = R
    rw [sumTot_append, sumTot_cons] at hsum ⊢
    exact hsum
  · rw [hbs, allocData_append, allocData_cons, allocData_append,
      allocData_cons, hfree]
    simp
    omega

theorem freeWF_B (E R : Nat) (st : HeapSt) (p s : List HBlock)
    (c lb : HBlock)
    (hE : st.extent_size = E) (hHE : HFER_SIZE < E)
    (hpos : ∀ b ∈ st.blocks, HFER_SIZE < b.total)
    (hadj : noAdjFree st.blocks)
    (hperm : st.freeList.Perm (freeA 0 st.blocks))
    (hent : st.entries = st.freeList.length)
    (hsum : sumTot st.blocks = R)
    (hbs : st.blocks = p ++ c :: s) (hfree : c.free = false)
    (hpl : p.getLast? = some lb) (hlf : lb.free = true)
    (hsh : ∀ y ∈ s.head?, y.free = false) :
    HeapWF0 E R
      { st with
        blocks := p.dropLast ++ ⟨c.total + lb.total, true⟩ :: s,
        freeList := (sumTot p - lb.total)
          :: st.freeList.erase (sumTot p - lb.total),
        entries := st.entries - 1 + 1 } ∧
    allocData (p.dropLast ++ ⟨c.total + lb.total, true⟩ :: s)
      + (c.total - HFER_SIZE) = allocData st.blocks := by
  obtain ⟨pp, hp⟩ : ∃ pp, p = pp ++ [lb] :=
    ⟨p.dropLast, (List.dropLast_append_getLast? lb hpl).symm⟩
  subst hp
  rw [List.dropLast_concat]
  have hxs : sumTot (pp ++ [lb]) = sumTot pp + lb.total := by
    rw [sumTot_append]; simp [sumTot]
  have hxx : sumTot (pp ++ [lb]) - lb.total = sumTot pp := by omega
  rw [hxx]
  rw [hbs] at hpos hadj hperm hsum
  unfold noAdjFree at hadj
  obtain ⟨hadjP, hadjCS, _⟩ := chain_decomp (pp ++ [lb]) s c hadj
  have hadjS : List.Chain' (fun x y => ¬(x.free = true ∧ y.free = true)) s :=
    (List.chain'_cons'.mp hadjCS).2
  rw [List.chain'_append] at hadjP
  have hadjPP := hadjP.1
  have hppl : ∀ x ∈ pp.getLast?, x.free = false := by
    intro x hx
    have := hadjP.2.2 x hx lb (by simp)
    simp [hlf] at this
    simp [this]
  have hposPP : ∀ b ∈ pp, 0 < b.total := by
    intro b hb
    have := hpos b (by simp [hb])
    unfold HFER_SIZE at this; omega
  have hpermL : st.freeList.Perm
      (freeA 0 pp ++ sumTot pp
        :: freeA (sumTot pp + lb.total + c.total) s) := by
    rw [freeA_append, Nat.zero_add, freeA_cons_alloc _ _ _ hfree,
      freeA_append, Nat.zero_add, freeA_cons_free _ _ _ hlf, hxs] at hperm
    simpa [freeA] using hperm
  have hxnot : sumTot pp ∉ freeA 0 pp := by
    intro hmem
    have := freeA_lt pp hposPP 0 _ hmem
    omega
  have hermL := perm_erase_middle _ _ _ _ hxnot hpermL
  have hxmem : sumTot pp ∈ st.freeList := hpermL.mem_iff.mpr (by simp)
  refine ⟨⟨hE, hHE, ?_, ?_, ?_, ?_, ?_⟩, ?_⟩
  · intro x hx
    simp only [List.mem_append, List.mem_cons] at hx
    rcases hx with h | h | h
    · exact hpos x (by simp [h])
    · subst h
      have := hpos c (by simp)
      simp only [HFER_SIZE] at this ⊢
      omega
    · exact hpos x (by simp [h])
  · exact chain_mid_build pp s _ hadjPP hadjS hppl hsh
  · show ((sumTot pp) :: st.freeList.erase (sumTot pp)).Perm _
    rw [freeA_append, Nat.zero_add, freeA_cons_free _ _ _ rfl]
    have hbase : sumTot pp + (c.total + lb.total)
        = sumTot pp + lb.total + c.total := by omega
    rw [hbase]
    exact (hermL.cons (sumTot pp)).trans List.perm_middle.symm
  · have h1 : (st.freeList.erase (sumTot pp)).length
        = st.freeList.length - 1 := List.length_erase_of_mem hxmem
    have h2 : 0 < st.freeList.length := List.length_pos_of_mem hxmem
    simp only [List.length_cons, h1]
    omega
  · show sumTot (pp ++ ⟨c.total + lb.total, true⟩ :: s) = R
    rw [sumTot_append, sumTot_cons] at hsum ⊢
    rw [hxs] at hsum
    simp at hsum ⊢
    omega
  · rw [hbs, allocData_append, allocData_cons, allocData_append,
      allocData_cons, hfree]
    simp [allocData, hlf]
    omega

theorem freeWF_C (E R : Nat) (st : HeapSt) (p s : List HBlock)
    (c rb : HBlock)
    (hE : st.extent_size = E) (hHE : HFER_SIZE < E)
    (hpos : ∀ b ∈ st.blocks, HFER_SIZE < b.total)
    (hadj : noAdjFree st.blocks)
    (hperm : st.freeList.Perm (freeA 0 st.blocks))
    (hent : st.entries = st.freeList.length)
    (hsum : sumTot st.blocks = R)
    (hbs : st.blocks = p ++ c :: s) (hfree : c.free = false)
    (hpl : ∀ x ∈ p.getLast?, x.free = false)
    (hsh : s.head? = some rb) (hrf : rb.free = true) :
    HeapWF0 E R
      { st with
        blocks := p ++ ⟨c.total + rb.total, true⟩ :: s.tail,
        freeList := sumTot p :: st.freeList.erase (sumTot p + c.total),
        entries := st.entries - 1 + 1 } ∧
    allocData (p ++ ⟨c.total + rb.total, true⟩ :: s.tail)
      + (c.total - HFER_SIZE) = allocData st.blocks := by
  obtain ⟨ss, hs⟩ : ∃ ss, s = rb :: ss :=
    ⟨s.tail, List.eq_cons_of_mem_head? (by simp [hsh])⟩
  subst hs
  rw [List.tail_cons]
  rw [hbs] at hpos hadj hperm hsum
  unfold noAdjFree at hadj
  obtain ⟨hadjP, hadjCS, _⟩ := chain_decomp p (rb :: ss) c hadj
  have hadjRS := (List.chain'_cons'.mp hadjCS).2
  have hadjSS : List.Chain' (fun x y => ¬(x.free = true ∧ y.free = true)) ss :=
    (List.chain'_cons'.mp hadjRS).2
  have hssh : ∀ y ∈ ss.head?, y.free = false := by
    intro y hy
    have := (List.chain'_cons'.mp hadjRS).1 y hy
    simp [hrf] at this
    simp [this]
  have hposP : ∀ b ∈ p, 0 < b.total := by
    intro b hb
    have := hpos b (by simp [hb])
    unfold HFER_SIZE at this; omega
  have hpermL : st.freeList.Perm
      (freeA 0 p ++ (sumTot p + c.total)
        :: freeA (sumTot p + c.total + rb.total) ss) := by
    rw [freeA_append, Nat.zero_add, freeA_cons_alloc _ _ _ hfree,
      freeA_cons_free _ _ _ hrf] at hperm
    exact hperm
  have hynot : sumTot p + c.total ∉ freeA 0 p := by
    intro hmem
    have := freeA_lt p hposP 0 _ hmem
    have hc : 0 < c.total := by
      have := hpos c (by simp)
      unfold HFER_SIZE at this; omega
    omega
  have hermL := perm_erase_middle _ _ _ _ hynot hpermL
  have hymem : sumTot p + c.total ∈ st.freeList :=
    hpermL.mem_iff.mpr (by simp)
  refine ⟨⟨hE, hHE, ?_, ?_, ?_, ?_, ?_⟩, ?_⟩
  · intro x hx
    simp only [List.mem_append, List.mem_cons] at hx
    rcases hx with h | h | h
    · exact hpos x (by simp [h])
    · subst h
      have := hpos c (by simp)
      simp only [HFER_SIZE] at this ⊢
      omega
    · exact hpos x (by simp [h])
  · exact chain_mid_build p ss _ hadjP hadjSS hpl hssh
  · show ((sumTot p) :: st.freeList.erase (sumTot p + c.total)).Perm _
    rw [freeA_append, Nat.zero_add, freeA_cons_free _ _ _ rfl]
    have hbase : sumTot p + (c.total + rb.total)
        = sumTot p + c.total + rb.total := by omega
    rw [hbase]
    exact (hermL.cons (sumTot p)).trans List.perm_middle.symm
  · have h1 : (st.freeList.erase (sumTot p + c.total)).length
        = st.freeList.length - 1 := List.length_erase_of_mem hymem
    have h2 : 0 < st.freeList.length := List.length_pos_of_mem hymem
    simp only [List.length_cons, h1]
    omega
  · show sumTot (p ++ ⟨c.total + rb.total, true⟩ :: ss) = R
    rw [sumTot_append, sumTot_cons] at hsum ⊢
    rw [sumTot_cons] at hsum
    simp at hsum ⊢
    omega
  · rw [hbs, allocData_append, allocData_cons, allocData_append,
      allocData_cons, hfree, allocData_cons, hrf]
    simp
    omega

theorem freeWF_D (E R : Nat) (st : HeapSt) (p s : List HBlock)
    (c lb rb : HBlock)
    (hE : st.extent_size = E) (hHE : HFER_SIZE < E)
    (hpos : ∀ b ∈ st.blocks, HFER_SIZE < b.total)
    (hadj : noAdjFree st.blocks)
    (hperm : st.freeList.Perm (freeA 0 st.blocks))
    (hent : st.entries = st.freeList.length)
    (hsum : sumTot st.blocks = R)
    (hbs : st.blocks = p ++ c :: s) (hfree : c.free = false)
    (hpl : p.getLast? = some lb) (hlf : lb.free = true)
    (hsh : s.head? = some rb) (hrf : rb.free = true) :
    HeapWF0 E R
      { st with
        blocks := p.dropLast
          ++ ⟨c.total + lb.total + rb.total, true⟩ :: s.tail,
        freeList := (sumTot p - lb.total)
          :: ((st.freeList.erase (sumTot p - lb.total)).erase
              (sumTot p + c.total)),
        entries := st.entries - 1 - 1 + 1 } ∧
    allocData (p.dropLast ++ ⟨c.total + lb.total + rb.total, true⟩ :: s.tail)
      + (c.total - HFER_SIZE) = allocData st.blocks := by
  obtain ⟨pp, hp⟩ : ∃ pp, p = pp ++ [lb] :=
    ⟨p.dropLast, (List.dropLast_append_getLast? lb hpl).symm⟩
  subst hp
  obtain ⟨ss, hs⟩ : ∃ ss, s = rb :: ss :=
    ⟨s.tail, List.eq_cons_of_mem_head? (by simp [hsh])⟩
  subst hs
  rw [List.dropLast_concat, List.tail_cons]
  have hxs : sumTot (pp ++ [lb]) = sumTot pp + lb.total := by
    rw [sumTot_append]; simp [sumTot]
  have hxx : sumTot (pp ++ [lb]) - lb.total = sumTot pp := by omega
  rw [hxx]
  rw [hbs] at hpos hadj hperm hsum
  unfold noAdjFree at hadj
  obtain ⟨hadjP, hadjCS, _⟩ := chain_decomp (pp ++ [lb]) (rb :: ss) c hadj
  rw [List.chain'_append] at hadjP
  have hadjPP := hadjP.1
  have hppl : ∀ x ∈ pp.getLast?, x.free = false := by
    intro x hx
    have := hadjP.2.2 x hx lb (by simp)
    simp [hlf] at this
    simp [this]
  have hadjRS := (List.chain'_cons'.mp hadjCS).2
  have hadjSS : List.Chain' (fun x y => ¬(x.free = true ∧ y.free = true)) ss :=
    (List.chain'_cons'.mp hadjRS).2
  have hssh : ∀ y ∈ ss.head?, y.free = false := by
    intro y hy
    have := (List.chain'_cons'.mp hadjRS).1 y hy
    simp [hrf] at this
    simp [this]
  have hposPP : ∀ b ∈ pp, 0 < b.total := by
    intro b hb
    have := hpos b (by simp [hb])
    unfold HFER_SIZE at this; omega
  have hcpos : 0 < c.total := by
    have := hpos c (by simp)
    unfold HFER_SIZE at this; omega
  have hlbpos : 0 < lb.total := by
    have := hpos lb (by simp)
    unfold HFER_SIZE at this; omega
  have hpermL : st.freeList.Perm
      (freeA 0 pp ++ sumTot pp :: (sumTot (pp ++ [lb]) + c.total)
        :: freeA (sumTot (pp ++ [lb]) + c.total + rb.total) ss) := by
    rw [freeA_append, Nat.zero_add, freeA_cons_alloc _ _ _ hfree,
      freeA_cons_free _ _ _ hrf, freeA_append, Nat.zero_add,
      freeA_cons_free _ _ _ hlf] at hperm
    rw [hxs] at hperm ⊢
    simpa [freeA] using hperm
  have hxnot : sumTot pp ∉ freeA 0 pp := by
    intro hmem
    have := freeA_lt pp hposPP 0 _ hmem
    omega
  have herm1 : (st.freeList.erase (sumTot pp)).Perm
      (freeA 0 pp ++ (sumTot (pp ++ [lb]) + c.total)
        :: freeA (sumTot (pp ++ [lb]) + c.total + rb.total) ss) :=
    perm_erase_middle _ _ _ _ hxnot hpermL
  have hynot : sumTot (pp ++ [lb]) + c.total ∉ freeA 0 pp := by
    intro hmem
    have := freeA_lt pp hposPP 0 _ hmem
    omega
  have herm2 := perm_erase_middle _ _ _ _ hynot herm1
  have hxmem : sumTot pp ∈ st.freeList := hpermL.mem_iff.mpr (by simp)
  have hymem : sumTot (pp ++ [lb]) + c.total ∈ st.freeList.erase (sumTot pp)
    := herm1.mem_iff.mpr (by simp)
  refine ⟨⟨hE, hHE, ?_, ?_, ?_, ?_, ?_⟩, ?_⟩
  · intro x hx
    simp only [List.mem_append, List.mem_cons] at hx
    rcases hx with h | h | h
    · exact hpos x (by simp [h])
    · subst h
      have := hpos c (by simp)
      simp only [HFER_SIZE] at this ⊢
      omega
    · exact hpos x (by simp [h])
  · exact chain_mid_build pp ss _ hadjPP hadjSS hppl hssh
  · show ((sumTot pp) :: _).Perm _
    rw [freeA_append, Nat.zero_add, freeA_cons_free _ _ _ rfl]
    have hbase : sumTot pp + (c.total + lb.total + rb.total)
        = sumTot (pp ++ [lb]) + c.total + rb.total := by
      rw [hxs]; omega
    rw [hbase]
    exact (herm2.cons (sumTot pp)).trans List.perm_middle.symm
  · have h1 : (st.freeList.erase (sumTot pp)).length
        = st.freeList.length - 1 := List.length_erase_of_mem hxmem
    have h2 : ((st.freeList.erase (sumTot pp)).erase
        (sumTot (pp ++ [lb]) + c.total)).length
        = (st.freeList.erase (sumTot pp)).length - 1 :=
      List.length_erase_of_mem hymem
    have h3 : 0 < st.freeList.length := List.length_pos_of_mem hxmem
    have h4 : 0 < (st.freeList.erase (sumTot pp)).length :=
      List.length_pos_of_mem hymem
    simp only [List.length_cons, h1, h2]
    omega
  · show sumTot (pp ++ ⟨c.total + lb.total + rb.total, true⟩ :: ss) = R
    rw [sumTot_append, sumTot_cons] at hsum ⊢
    rw [hxs] at hsum
    rw [sumTot_cons] at hsum
    simp at hsum ⊢
    omega
  · rw [hbs, allocData_append, allocData_cons, allocData_append,
      allocData_cons, hfree, allocData_cons, hrf]
    simp [allocData, hlf]
    omega

theorem heapFreeBlock_WF0 (E R : Nat) (st : HeapSt) (a : Nat) (bb : HBlock)
    (hwf : HeapWF0 E R st) (hba : blockAtAddr st.blocks a = some bb)
    (hfree : bb.free = false) :
    HeapWF0 E R (heapFreeBlock st a) ∧
    allocData (heapFreeBlock st a).blocks + (bb.total - HFER_SIZE)
      = allocData st.blocks ∧
    (heapFreeBlock st a).size_used = st.size_used := by
  obtain ⟨hE, hHE, hpos, hadj, hperm, hent, hsum⟩ := hwf
  rcases hfb : findBlock st.blocks a with _ | ⟨p, c, s⟩
  · unfold blockAtAddr at hba; rw [hfb] at hba; simp at hba
  have hcb : c = bb := by
    unfold blockAtAddr at hba; rw [hfb] at hba; simpa using hba
  subst hcb
  obtain ⟨hbs, hsa⟩ := findBlock_decomp _ _ _ _ _ hfb
  subst hsa
  unfold heapFreeBlock
  rw [hfb]
  dsimp only
  rcases hL : p.getLast? with _ | lb <;> rcases hH : s.head? with _ | rb
  · -- no left, no right
    have h1 : ∀ x ∈ p.getLast?, x.free = false := by simp [hL]
    have h2 : ∀ y ∈ s.head?, y.free = false := by simp [hH]
    have hpay := freeWF_A E R st p s c hE hHE hpos hadj hperm hent hsum hbs
      hfree h1 h2
    simp only [hL, hH, optFree, optTot]
    exact ⟨hpay.1, hpay.2, trivial⟩
  · have h1 : ∀ x ∈ p.getLast?, x.free = false := by simp [hL]
    by_cases hrf : rb.free = true
    · have hpay := freeWF_C E R st p s c rb hE hHE hpos hadj hperm hent hsum
        hbs hfree h1 hH hrf
      simp only [hL, hH, optFree, optTot, hrf]
      exact ⟨hpay.1, hpay.2, trivial⟩
    · rw [Bool.not_eq_true] at hrf
      have h2 : ∀ y ∈ s.head?, y.free = false := by
        intro y hy; rw [hH] at hy; simp at hy; subst hy; exact hrf
      have hpay := freeWF_A E R st p s c hE hHE hpos hadj hperm hent hsum hbs
        hfree h1 h2
      simp only [hL, hH, optFree, optTot, hrf]
      exact ⟨hpay.1, hpay.2, trivial⟩
  · have h2 : ∀ y ∈ s.head?, y.free = false := by simp [hH]
    by_cases hlf : lb.free = true
    · have hpay := freeWF_B E R st p s c lb hE hHE hpos hadj hperm hent hsum
        hbs hfree hL hlf h2
      simp only [hL, hH, optFree, optTot, hlf]
      exact ⟨hpay.1, hpay.2, trivial⟩
    · rw [Bool.not_eq_true] at hlf
      have h1 : ∀ x ∈ p.getLast?, x.free = false := by
        intro x hx; rw [hL] at hx; simp at hx; subst hx; exact hlf
      have hpay := freeWF_A E R st p s c hE hHE hpos hadj hperm hent hsum hbs
        hfree h1 h2
      simp only [hL, hH, optFree, optTot, hlf]
      exact ⟨hpay.1, hpay.2, trivial⟩
  · by_cases hlf : lb.free = true <;> by_cases hrf : rb.free = true
    · have hpay := freeWF_D E R st p s c lb rb hE hHE hpos hadj hperm hent
        hsum hbs hfree hL hlf hH hrf
      simp only [hL, hH, optFree, optTot, hlf, hrf]
      exact ⟨hpay.1, hpay.2, trivial⟩
    · rw [Bool.not_eq_true] at hrf
      have h2 : ∀ y ∈ s.head?, y.free = false := by
        intro y hy; rw [hH] at hy; simp at hy; subst hy; exact hrf
      have hpay := freeWF_B E R st p s c lb hE hHE hpos hadj hperm hent hsum
        hbs hfree hL hlf h2
      simp only [hL, hH, optFree, optTot, hlf, hrf]
      exact ⟨hpay.1, hpay.2, trivial⟩
    · rw [Bool.not_eq_true] at hlf
      have h1 : ∀ x ∈ p.getLast?, x.free = false := by
        intro x hx; rw [hL] at hx; simp at hx; subst hx; exact hlf
      have hpay := freeWF_C E R st p s c rb hE hHE hpos hadj hperm hent hsum
        hbs hfree h1 hH hrf
      simp only [hL, hH, optFree, optTot, hlf, hrf]
      exact ⟨hpay.1, hpay.2, trivial⟩
    · rw [Bool.not_eq_true] at hlf hrf
      have h1 : ∀ x ∈ p.getLast?, x.free = false := by
        intro x hx; rw [hL] at hx; simp at hx; subst hx; exact hlf
      have h2 : ∀ y ∈ s.head?, y.free = false := by
        intro y hy; rw [hH] at hy; simp at hy; subst hy; exact hrf
      have hpay := freeWF_A E R st p s c hE hHE hpos hadj hperm hent hsum hbs
        hfree h1 h2
      simp only [hL, hH, optFree, optTot, hlf, hrf]
      exact ⟨hpay.1, hpay.2, trivial⟩

theorem le_roundup (x y : Nat) (hy : 0 < y) : x ≤ roundup x y := by
  unfold roundup
  rcases Nat.eq_zero_or_pos x with rfl | hx
  · simp
  have h1 := Nat.div_add_mod (x + y - 1) y
  have h2 : (x + y - 1) % y < y := Nat.mod_lt _ hy
  have h3 : (x + y - 1) / y * y = y * ((x + y - 1) / y) := by ring
  omega

theorem base_le_roundup (x y : Nat) (hx : 0 < x) (hy : 0 < y) :
    y ≤ roundup x y := by
  unfold roundup
  have h1 : 1 ≤ (x + y - 1) / y := (Nat.one_le_div_iff hy).mpr (by omega)
  calc y = 1 * y := by ring
  _ ≤ ((x + y - 1) / y) * y := Nat.mul_le_mul_right y h1

theorem chain_mid_build_alloc (p s : List HBlock) (m : HBlock)
    (hm : m.free = false)
    (hp : List.Chain' (fun x y => ¬(x.free = true ∧ y.free = true)) p)
    (hs : List.Chain' (fun x y => ¬(x.free = true ∧ y.free = true)) s) :
    List.Chain' (fun x y => ¬(x.free = true ∧ y.free = true))
      (p ++ m :: s) := by
  rw [List.chain'_append]
  refine ⟨hp, ?_, ?_⟩
  · rw [List.chain'_cons']
    refine ⟨?_, hs⟩
    intro y hy
    simp [hm]
  · intro x hx y hy
    simp only [List.head?_cons, Option.mem_def, Option.some.injEq] at hy
    subst hy
    simp [hm]

theorem blockAt_piece (p rest : List HBlock) (m : HBlock)
    (hposP : ∀ b ∈ p, 0 < b.total) :
    blockAtAddr (p ++ m :: rest) (sumTot p) = some m := by
  unfold blockAtAddr
  have h := findBlock_append_right p hposP (m :: rest) 0
  rw [Nat.add_zero] at h
  rw [h]
  simp [findBlock]

theorem allocWF_split (E R : Nat) (st : HeapSt) (p s : List HBlock)
    (c : HBlock) (a allocSize : Nat) (restFL : List Nat)
    (hE : st.extent_size = E) (hHE : HFER_SIZE < E)
    (hpos : ∀ b ∈ st.blocks, HFER_SIZE < b.total)
    (hadj : noAdjFree st.blocks)
    (hperm : st.freeList.Perm (freeA 0 st.blocks))
    (hent : st.entries = st.freeList.length)
    (hsum : sumTot st.blocks = R)
    (hfl : st.freeList = a :: restFL)
    (hbs : st.blocks = p ++ c :: s) (hsa : sumTot p = a)
    (hcf : c.free = true)
    (hsz1 : E ≤ allocSize) (hsz2 : allocSize + E ≤ c.total) :
    HeapWF0 E R
      { st with
        blocks := p ++ ⟨allocSize, false⟩
          :: ⟨c.total - allocSize, true⟩ :: s,
        freeList := (a + allocSize) :: restFL,
        entries := st.entries - 1 + 1 } ∧
    allocData (p ++ ⟨allocSize, false⟩ :: ⟨c.total - allocSize, true⟩ :: s)
      = allocData st.blocks + (allocSize - HFER_SIZE) := by
  subst hsa
  rw [hbs] at hpos hadj hperm hsum
  unfold noAdjFree at hadj
  obtain ⟨hadjP, hadjCS, hbound⟩ := chain_decomp p s c hadj
  have hadjS : List.Chain' (fun x y => ¬(x.free = true ∧ y.free = true)) s :=
    (List.chain'_cons'.mp hadjCS).2
  have hsh : ∀ y ∈ s.head?, y.free = false := by
    intro y hy
    have := (List.chain'_cons'.mp hadjCS).1 y hy
    simp [hcf] at this
    simp [this]
  have hpl : ∀ x ∈ p.getLast?, x.free = false := by
    intro x hx
    have := hbound x hx
    simp [hcf] at this
    simp [this]
  have hposP : ∀ b ∈ p, 0 < b.total := by
    intro b hb
    have := hpos b (by simp [hb])
    unfold HFER_SIZE at this; omega
  have hpermL : st.freeList.Perm
      (freeA 0 p ++ sumTot p :: freeA (sumTot p + c.total) s) := by
    rw [freeA_append, Nat.zero_add, freeA_cons_free _ _ _ hcf] at hperm
    exact hperm
  have hanot : sumTot p ∉ freeA 0 p := by
    intro hmemA
    have := freeA_lt p hposP 0 _ hmemA
    omega
  have hrest : restFL.Perm
      (freeA 0 p ++ freeA (sumTot p + c.total) s) := by
    have h1 := perm_erase_middle _ _ _ _ hanot hpermL
    rw [hfl, List.erase_cons_head] at h1
    exact h1
  refine ⟨⟨hE, hHE, ?_, ?_, ?_, ?_, ?_⟩, ?_⟩
  · intro x hx
    simp only [List.mem_append, List.mem_cons] at hx
    rcases hx with h | h | h | h
    · exact hpos x (by simp [h])
    · subst h; simp; omega
    · subst h; simp; omega
    · exact hpos x (by simp [h])
  · refine chain_mid_build_alloc p _ _ rfl hadjP ?_
    rw [List.chain'_cons']
    exact ⟨fun y hy => by simp [hsh y hy], hadjS⟩
  · show ((sumTot p + allocSize) :: restFL).Perm _
    rw [freeA_append, Nat.zero_add, freeA_cons_alloc _ _ _ rfl,
      freeA_cons_free _ _ _ rfl]
    have hb2 : sumTot p + allocSize + (c.total - allocSize)
        = sumTot p + c.total := by omega
    rw [hb2]
    exact (hrest.cons (sumTot p + allocSize)).trans List.perm_middle.symm
  · rw [hfl] at hent
    simp at hent ⊢
    omega
  · rw [sumTot_append, sumTot_cons] at hsum ⊢
    rw [sumTot_cons]
    simp at hsum ⊢
    omega
  · rw [hbs]
    simp [allocData_append, allocData_cons, hcf]
    omega

theorem allocWF_nosplit (E R : Nat) (st : HeapSt) (p s : List HBlock)
    (c : HBlock) (a : Nat) (restFL : List Nat)
    (hE : st.extent_size = E) (hHE : HFER_SIZE < E)
    (hpos : ∀ b ∈ st.blocks, HFER_SIZE < b.total)
    (hadj : noAdjFree st.blocks)
    (hperm : st.freeList.Perm (freeA 0 st.blocks))
    (hent : st.entries = st.freeList.length)
    (hsum : sumTot st.blocks = R)
    (hfl : st.freeList = a :: restFL)
    (hbs : st.blocks = p ++ c :: s) (hsa : sumTot p = a)
    (hcf : c.free = true) :
    HeapWF0 E R
      { st with
        blocks := p ++ ⟨c.total, false⟩ :: s,
        freeList := restFL,
        entries := st.entries - 1 } ∧
    allocData (p ++ ⟨c.total, false⟩ :: s)
      = allocData st.blocks + (c.total - HFER_SIZE) := by
  subst hsa
  rw [hbs] at hpos hadj hperm hsum
  unfold noAdjFree at hadj
  obtain ⟨hadjP, hadjCS, hbound⟩ := chain_decomp p s c hadj
  have hadjS : List.Chain' (fun x y => ¬(x.free = true ∧ y.free = true)) s :=
    (List.chain'_cons'.mp hadjCS).2
  have hposP : ∀ b ∈ p, 0 < b.total := by
    intro b hb
    have := hpos b (by simp [hb])
    unfold HFER_SIZE at this; omega
  have hpermL : st.freeList.Perm
      (freeA 0 p ++ sumTot p :: freeA (sumTot p + c.total) s) := by
    rw [freeA_append, Nat.zero_add, freeA_cons_free _ _ _ hcf] at hperm
    exact hperm
  have hanot : sumTot p ∉ freeA 0 p := by
    intro hmemA
    have := freeA_lt p hposP 0 _ hmemA
    omega
  have hrest : restFL.Perm
      (freeA 0 p ++ freeA (sumTot p + c.total) s) := by
    have h1 := perm_erase_middle _ _ _ _ hanot hpermL
    rw [hfl, List.erase_cons_head] at h1
    exact h1
  refine ⟨⟨hE, hHE, ?_, ?_, ?_, ?_, ?_⟩, ?_⟩
  · intro x hx
    simp only [List.mem_append, List.mem_cons] at hx
    rcases hx with h | h | h
    · exact hpos x (by simp [h])
    · subst h
      have := hpos c (by simp)
      simp at this ⊢
      omega
    · exact hpos x (by simp [h])
  · exact chain_mid_build_alloc p s _ rfl hadjP hadjS
  · show restFL.Perm _
    rw [freeA_append, Nat.zero_add, freeA_cons_alloc _ _ _ rfl]
    exact hrest
  · rw [hfl] at hent
    simp at hent ⊢
    omega
  · rw [sumTot_append, sumTot_cons] at hsum ⊢
    simp at hsum ⊢
    omega
  · rw [hbs]
    simp [allocData_append, allocData_cons, hcf]
    omega

set_option maxHeartbeats 1000000 in
theorem allocStep_WF (E R D0 : Nat) (it : AllocIter)
    (hwf : HeapWF0 E R it.st)
    (hacc : allocData it.st.blocks + it.freedSmall = D0 + it.allocated)
    (hsm : ∀ sm, it.small = some sm →
      blockAtAddr it.st.blocks sm = some ⟨E, false⟩) :
    (HeapWF0 E R (allocStep it).out.st ∧
      allocData (allocStep it).out.st.blocks + (allocStep it).out.freedSmall
        = D0 + (allocStep it).out.allocated ∧
      (allocStep it).out.st.size_used = it.st.size_used) ∧
    ∀ it1, allocStep it = AllocStepRes.more it1 →
      ∀ sm, it1.small = some sm →
        blockAtAddr it1.st.blocks sm = some ⟨E, false⟩ := by
  unfold allocStep
  rcases hfl : it.st.freeList with _ | ⟨a, restFL⟩
  · exact ⟨⟨hwf, hacc, rfl⟩, fun it1 h => by simp at h⟩
  dsimp only
  rcases hfb : findBlock it.st.blocks a with _ | ⟨p, c, s⟩
  · exact ⟨⟨hwf, hacc, rfl⟩, fun it1 h => by simp at h⟩
  dsimp only
  obtain ⟨hE, hHE, hpos, hadj, hperm, hent, hsum⟩ := hwf
  obtain ⟨hbs, hsa⟩ := findBlock_decomp _ _ _ _ _ hfb
  have hposAll : ∀ x ∈ it.st.blocks, 0 < x.total := by
    intro x hx; have := hpos x hx; unfold HFER_SIZE at this; omega
  have hposP : ∀ b ∈ p, 0 < b.total := by
    intro b hb; exact hposAll b (by rw [hbs]; simp [hb])
  have hmemA : a ∈ freeA 0 it.st.blocks := by
    have : a ∈ it.st.freeList := by rw [hfl]; simp
    exact hperm.mem_iff.mp this
  have hcf : c.free = true := by
    obtain ⟨p2, c2, s2, hfb2, hcf2⟩ := mem_freeA_findBlock _ hposAll 0 a hmemA
    rw [Nat.sub_zero, hfb] at hfb2
    simp at hfb2
    rw [hfb2.2.1]
    exact hcf2
  have hcBA : blockAtAddr it.st.blocks a = some c := by
    unfold blockAtAddr; rw [hfb]; rfl
  have hEpos : 0 < it.st.extent_size := by
    rw [hE]; unfold HFER_SIZE at hHE; omega
  have hsz1 : it.st.extent_size
      ≤ roundup (it.toAlloc + HFER_SIZE) it.st.extent_size :=
    base_le_roundup _ _ (by unfold HFER_SIZE; omega) hEpos
  by_cases hds : roundup (it.toAlloc + HFER_SIZE) it.st.extent_size
      + it.st.extent_size ≤ c.total
  · -- split branch
    rw [decide_eq_true hds]
    simp only [if_true]
    obtain ⟨hwf1, had1⟩ := allocWF_split E R it.st p s c a
      (roundup (it.toAlloc + HFER_SIZE) it.st.extent_size) restFL hE hHE hpos
      hadj hperm hent hsum hfl hbs hsa hcf (by rw [← hE]; exact hsz1)
      (by rw [← hE] ; exact hds)
    have hsmallRec : roundup (it.toAlloc + HFER_SIZE) it.st.extent_size = it.st.extent_size →
        blockAtAddr (p ++
          ⟨roundup (it.toAlloc + HFER_SIZE) it.st.extent_size, false⟩ ::
          ⟨c.total - roundup (it.toAlloc + HFER_SIZE) it.st.extent_size,
            true⟩ :: s) a = some ⟨E, false⟩ := by
      intro hrc
      have hp2 := blockAt_piece p
        (⟨c.total - roundup (it.toAlloc + HFER_SIZE) it.st.extent_size,
          true⟩ :: s)
        ⟨roundup (it.toAlloc + HFER_SIZE) it.st.extent_size, false⟩ hposP
      rw [hsa] at hp2
      rw [hp2, hrc, hE]
    have hsmallOld : ∀ sm, it.small = some sm →
        blockAtAddr (p ++
          ⟨roundup (it.toAlloc + HFER_SIZE) it.st.extent_size, false⟩ ::
          ⟨c.total - roundup (it.toAlloc + HFER_SIZE) it.st.extent_size,
            true⟩ :: s) sm = some ⟨E, false⟩ := by
      intro sm hsm2
      have hold := hsm sm hsm2
      rw [hbs] at hold
      have hne : sm ≠ sumTot p := by
        intro heqq
        rw [heqq, ← hbs] at hold
        rw [hsa] at hold
        rw [hcBA] at hold
        have hcE : c = (⟨E, false⟩ : HBlock) := by injection hold
        rw [hcE] at hcf
        simp at hcf
      have hs2 := blockAt_surgery p c s
        [⟨roundup (it.toAlloc + HFER_SIZE) it.st.extent_size, false⟩,
         ⟨c.total - roundup (it.toAlloc + HFER_SIZE) it.st.extent_size,
          true⟩] sm ⟨E, false⟩
        (by simp [sumTot]; omega)
        (by
          intro b hb
          simp at hb
          rcases hb with rfl | rfl <;> simp <;> omega)
        hold hne
      rw [List.append_assoc] at hs2
      exact hs2
    split
    · -- to_allocate hits zero: loop ends with .last
      rename_i hc2
      try dsimp only [AllocStepRes.out]
      split
      · -- a one-extent piece was just recorded in small_extent
        rename_i hrec
        try dsimp only [AllocStepRes.out]
        split
        · -- the recorded small extent is freed
          rename_i hfs
          dsimp only [AllocStepRes.out]
          obtain ⟨hwf2, had2, hsu2⟩ := heapFreeBlock_WF0 E R _ a ⟨E, false⟩
            hwf1 (hsmallRec hrec.2) rfl
          refine ⟨⟨hwf2, ?_, hsu2⟩, fun it1 h => by simp at h⟩
          dsimp only [AllocStepRes.out] at had2 ⊢
          rw [had1] at had2
          rw [hE] at had2 ⊢
          omega
        · rename_i hfs
          try dsimp only [AllocStepRes.out]
          refine ⟨⟨hwf1, ?_, rfl⟩, fun it1 h => by simp at h⟩
          dsimp only [AllocStepRes.out]
          rw [had1]
          omega
      · rename_i hrec
        try dsimp only [AllocStepRes.out]
        split
        · rename_i hfs
          rcases hS1 : it.small with _ | sm
          · exact absurd hS1 hfs.2.2
          dsimp only [AllocStepRes.out]
          obtain ⟨hwf2, had2, hsu2⟩ := heapFreeBlock_WF0 E R _ sm ⟨E, false⟩
            hwf1 (hsmallOld sm hS1) rfl
          refine ⟨⟨hwf2, ?_, hsu2⟩, fun it1 h => by simp at h⟩
          dsimp only [AllocStepRes.out] at had2 ⊢
          rw [had1] at had2
          rw [hE] at had2 ⊢
          omega
        · rename_i hfs
          try dsimp only [AllocStepRes.out]
          refine ⟨⟨hwf1, ?_, rfl⟩, fun it1 h => by simp at h⟩
          dsimp only [AllocStepRes.out]
          rw [had1]
          omega
    · -- the loop continues with .more
      rename_i hc2
      try dsimp only [AllocStepRes.out]
      split
      · rename_i hrec
        try dsimp only [AllocStepRes.out]
        split
        · rename_i hfs
          have hcontr : it.toAlloc - (roundup (it.toAlloc + HFER_SIZE) it.st.extent_size - HFER_SIZE) ⊓ it.toAlloc
              = 0 := by
            have := hfs.1
            omega
          exact absurd hcontr hc2
        · rename_i hfs
          try dsimp only [AllocStepRes.out]
          refine ⟨⟨hwf1, ?_, rfl⟩, ?_⟩
          · dsimp only [AllocStepRes.out]
            rw [had1]
            omega
          · intro it1 h
            have hit : it1 = _ := (AllocStepRes.more.inj h).symm
            subst hit
            dsimp only [AllocStepRes.out]
            intro sm hsm2
            have haeq : a = sm := by injection hsm2
            subst haeq
            exact hsmallRec hrec.2
      · rename_i hrec
        try dsimp only [AllocStepRes.out]
        split
        · rename_i hfs
          have hcontr : it.toAlloc - (roundup (it.toAlloc + HFER_SIZE) it.st.extent_size - HFER_SIZE) ⊓ it.toAlloc
              = 0 := by
            have := hfs.1
            omega
          exact absurd hcontr hc2
        · rename_i hfs
          try dsimp only [AllocStepRes.out]
          refine ⟨⟨hwf1, ?_, rfl⟩, ?_⟩
          · dsimp only [AllocStepRes.out]
            rw [had1]
            omega
          · intro it1 h
            have hit : it1 = _ := (AllocStepRes.more.inj h).symm
            subst hit
            dsimp only [AllocStepRes.out]
            exact hsmallOld
  · -- no-split branch
    rw [decide_eq_false hds]
    simp only [Bool.false_eq_true, if_false]
    obtain ⟨hwf1, had1⟩ := allocWF_nosplit E R it.st p s c a restFL hE hHE
      hpos hadj hperm hent hsum hfl hbs hsa hcf
    have hsmallRec : c.total = it.st.extent_size →
        blockAtAddr (p ++ ⟨c.total, false⟩ :: s) a = some ⟨E, false⟩ := by
      intro hrc
      have hp2 := blockAt_piece p s ⟨c.total, false⟩ hposP
      rw [hsa] at hp2
      rw [hp2, hrc, hE]
    have hsmallOld : ∀ sm, it.small = some sm →
        blockAtAddr (p ++ ⟨c.total, false⟩ :: s) sm = some ⟨E, false⟩ := by
      intro sm hsm2
      have hold := hsm sm hsm2
      rw [hbs] at hold
      have hne : sm ≠ sumTot p := by
        intro heqq
        rw [heqq, ← hbs] at hold
        rw [hsa] at hold
        rw [hcBA] at hold
        have hcE : c = (⟨E, false⟩ : HBlock) := by injection hold
        rw [hcE] at hcf
        simp at hcf
      have hs2 := blockAt_surgery p c s
        [⟨c.total, false⟩] sm ⟨E, false⟩
        (by simp [sumTot])
        (by
          intro b hb
          simp at hb
          subst hb
          have := hposAll c (by rw [hbs]; simp)
          simpa using this)
        hold hne
      rw [List.append_assoc] at hs2
      exact hs2
    split
    · -- to_allocate hits zero: loop ends with .last
      rename_i hc2
      try dsimp only [AllocStepRes.out]
      split
      · -- a one-extent piece was just recorded in small_extent
        rename_i hrec
        try dsimp only [AllocStepRes.out]
        split
        · -- the recorded small extent is freed
          rename_i hfs
          dsimp only [AllocStepRes.out]
          obtain ⟨hwf2, had2, hsu2⟩ := heapFreeBlock_WF0 E R _ a ⟨E, false⟩
            hwf1 (hsmallRec hrec.2) rfl
          refine ⟨⟨hwf2, ?_, hsu2⟩, fun it1 h => by simp at h⟩
          dsimp only [AllocStepRes.out] at had2 ⊢
          rw [had1] at had2
          rw [hE] at had2 ⊢
          omega
        · rename_i hfs
          try dsimp only [AllocStepRes.out]
          refine ⟨⟨hwf1, ?_, rfl⟩, fun it1 h => by simp at h⟩
          dsimp only [AllocStepRes.out]
          rw [had1]
          omega
      · rename_i hrec
        try dsimp only [AllocStepRes.out]
        split
        · rename_i hfs
          rcases hS1 : it.small with _ | sm
          · exact absurd hS1 hfs.2.2
          dsimp only [AllocStepRes.out]
          obtain ⟨hwf2, had2, hsu2⟩ := heapFreeBlock_WF0 E R _ sm ⟨E, false⟩
            hwf1 (hsmallOld sm hS1) rfl
          refine ⟨⟨hwf2, ?_, hsu2⟩, fun it1 h => by simp at h⟩
          dsimp only [AllocStepRes.out] at had2 ⊢
          rw [had1] at had2
          rw [hE] at had2 ⊢
          omega
        · rename_i hfs
          try dsimp only [AllocStepRes.out]
          refine ⟨⟨hwf1, ?_, rfl⟩, fun it1 h => by simp at h⟩
          dsimp only [AllocStepRes.out]
          rw [had1]
          omega
    · -- the loop continues with .more
      rename_i hc2
      try dsimp only [AllocStepRes.out]
      split
      · rename_i hrec
        try dsimp only [AllocStepRes.out]
        split
        · rename_i hfs
          have hcontr : it.toAlloc - (c.total - HFER_SIZE) ⊓ it.toAlloc
              = 0 := by
            have := hfs.1
            omega
          exact absurd hcontr hc2
        · rename_i hfs
          try dsimp only [AllocStepRes.out]
          refine ⟨⟨hwf1, ?_, rfl⟩, ?_⟩
          · dsimp only [AllocStepRes.out]
            rw [had1]
            omega
          · intro it1 h
            have hit : it1 = _ := (AllocStepRes.more.inj h).symm
            subst hit
            dsimp only [AllocStepRes.out]
            intro sm hsm2
            have haeq : a = sm := by injection hsm2
            subst haeq
            exact hsmallRec hrec.2
      · rename_i hrec
        try dsimp only [AllocStepRes.out]
        split
        · rename_i hfs
          have hcontr : it.toAlloc - (c.total - HFER_SIZE) ⊓ it.toAlloc
              = 0 := by
            have := hfs.1
            omega
          exact absurd hcontr hc2
        · rename_i hfs
          try dsimp only [AllocStepRes.out]
          refine ⟨⟨hwf1, ?_, rfl⟩, ?_⟩
          · dsimp only [AllocStepRes.out]
            rw [had1]
            omega
          · intro it1 h
            have hit : it1 = _ := (AllocStepRes.more.inj h).symm
            subst hit
            dsimp only [AllocStepRes.out]
            exact hsmallOld

theorem allocLoop_WF (E R D0 : Nat) : ∀ (fuel : Nat) (it : AllocIter),
    HeapWF0 E R it.st →
    allocData it.st.blocks + it.freedSmall = D0 + it.allocated →
    (∀ sm, it.small = some sm →
      blockAtAddr it.st.blocks sm = some ⟨E, false⟩) →
    HeapWF0 E R (allocLoop fuel it).st ∧
    allocData (allocLoop fuel it).st.blocks + (allocLoop fuel it).freedSmall
      = D0 + (allocLoop fuel it).allocated ∧
    (allocLoop fuel it).st.size_used = it.st.size_used := by
  intro fuel
  induction fuel with
  | zero => intro it h1 h2 h3; exact ⟨h1, h2, rfl⟩
  | succ fuel ih =>
    intro it h1 h2 h3
    have hstep := allocStep_WF E R D0 it h1 h2 h3
    unfold allocLoop
    rcases hs : allocStep it with it1 | it1 | it1 <;> rw [hs] at hstep
    · exact hstep.1
    · exact hstep.1
    · have hout := hstep.1
      have hsm1 := hstep.2 it1 rfl
      have := ih it1 hout.1 hout.2.1 hsm1
      exact ⟨this.1, this.2.1, this.2.2.trans hout.2.2⟩

theorem vmcache_alloc_WF (E R : Nat) (st : HeapSt) (size : Nat)
    (chain : List Nat) (small : Option Nat) (hwf : HeapWF E R st)
    (hsm : smallGuard st small) :
    HeapWF E R ((vmcache_alloc st size chain small).1).st := by
  obtain ⟨hwf0, hsu⟩ := hwf
  have hsmOK : ∀ sm, small = some sm →
      blockAtAddr st.blocks sm = some ⟨E, false⟩ := by
    intro sm h
    subst h
    obtain ⟨b, hb, hbf, hbt⟩ := hsm
    have hbE : b = (⟨E, false⟩ : HBlock) := by
      cases b
      simp at hbf hbt ⊢
      exact ⟨hbt.trans hwf0.1, hbf⟩
    rw [← hbE]
    exact hb
  have hloop := allocLoop_WF E R (allocData st.blocks)
    (st.freeList.length + 1) ⟨st, size, chain, small, 0, 0, []⟩ hwf0
    (by simp) hsmOK
  unfold vmcache_alloc
  dsimp only
  refine ⟨hloop.1, ?_⟩
  have h1 := hloop.2.1
  have h2 := hloop.2.2
  dsimp only at h1 h2 ⊢
  rw [h2, hsu]
  omega

theorem freeFold_WF (E R : Nat) :
    ∀ (chain : List Nat) (st : HeapSt) (k : Nat),
      HeapWF0 E R st → chainGuardB st chain = true →
      HeapWF0 E R (chain.foldl freeStep (st, k)).1 ∧
      allocData ((chain.foldl freeStep (st, k)).1).blocks
        + (chain.foldl freeStep (st, k)).2
        = allocData st.blocks + k ∧
      ((chain.foldl freeStep (st, k)).1).size_used = st.size_used := by
  intro chain
  induction chain with
  | nil => intro st k h1 h2; exact ⟨h1, by simp, rfl⟩
  | cons a rest ih =>
    intro st k h1 h2
    unfold chainGuardB at h2
    rw [Bool.and_eq_true] at h2
    unfold isAllocatedAt at h2
    rcases hba : blockAtAddr st.blocks a with _ | b <;> rw [hba] at h2
    · simp at h2
    have hbf : b.free = false := by
      have := h2.1
      simp at this
      exact this
    obtain ⟨hwf2, had2, hsu2⟩ := heapFreeBlock_WF0 E R st a b h1 hba hbf
    have hstep : freeStep (st, k) a
        = (heapFreeBlock st a, k + (b.total - HFER_SIZE)) := by
      unfold freeStep
      dsimp only
      rw [hba]
    rw [List.foldl_cons, hstep]
    have hrec := ih (heapFreeBlock st a) (k + (b.total - HFER_SIZE))
      hwf2 h2.2
    refine ⟨hrec.1, ?_, hrec.2.2.trans hsu2⟩
    have h3 := hrec.2.1
    omega

theorem vmcache_free_WF (E R : Nat) (st : HeapSt) (chain : List Nat)
    (hwf : HeapWF E R st) (hg : chainGuardB st chain = true) :
    HeapWF E R (vmcache_free st chain) := by
  obtain ⟨h0, hsu⟩ := hwf
  have hf := freeFold_WF E R chain st 0 h0 hg
  unfold vmcache_free
  dsimp only
  refine ⟨hf.1, ?_⟩
  have h1 := hf.2.1
  have h2 := hf.2.2
  dsimp only
  rw [h2, hsu]
  omega

theorem applyHeapOp_WF (E R : Nat) (st : HeapSt) (op : HeapOp)
    (h : HeapWF E R st) : HeapWF E R (applyHeapOp st op) := by
  cases op with
  | alloc size sm =>
    show HeapWF E R
      (if smallGuard st sm then ((vmcache_alloc st size [] sm).1).st else st)
    split
    · rename_i hg
      exact vmcache_alloc_WF E R st size [] sm h hg
    · exact h
  | free chain =>
    show HeapWF E R
      (if chainGuardB st chain = true then vmcache_free st chain else st)
    split
    · rename_i hg
      exact vmcache_free_WF E R st chain h hg
    · exact h

theorem applyHeapOps_WF (E R : Nat) (ops : List HeapOp) :
    ∀ (st : HeapSt), HeapWF E R st → HeapWF E R (applyHeapOps st ops) := by
  induction ops with
  | nil => intro st h; exact h
  | cons op rest ih =>
    intro st h
    unfold applyHeapOps at ih ⊢
    rw [List.foldl_cons]
    exact ih _ (applyHeapOp_WF E R st op h)

theorem heap_create_WF (size E : Nat) (hE : HFER_SIZE < E)
    (hu : HFER_SIZE < heapUsable size) :
    HeapWF E (heapUsable size) (vmcache_heap_create size E) := by
  unfold HeapWF HeapWF0 vmcache_heap_create noAdjFree
  refine ⟨⟨rfl, hE, ?_, ?_, ?_, ?_, ?_⟩, ?_⟩
  · intro b hb
    simp at hb
    subst hb
    exact hu
  · simp
  · simp [freeA]
  · simp
  · simp [sumTot]
  · simp [allocData]

theorem heap_drained (E R : Nat) (st : HeapSt) (h : HeapWF E R st)
    (hz : st.size_used = 0) (hR : 0 < R) :
    st.blocks = [⟨R, true⟩] ∧ st.entries = 1 := by
  obtain ⟨⟨hE, hHE, hpos, hadj, hperm, hent, hsum⟩, hsu⟩ := h
  have hall : ∀ b ∈ st.blocks, b.free = true := by
    intro b hb
    by_contra hbf
    rw [Bool.not_eq_true] at hbf
    have hmm : b.total - HFER_SIZE ∈ st.blocks.map
        (fun b => if b.free then 0 else b.total - HFER_SIZE) :=
      List.mem_map.mpr ⟨b, hb, by simp [hbf]⟩
    have hle : b.total - HFER_SIZE ≤ allocData st.blocks :=
      List.single_le_sum (fun x _ => Nat.zero_le x) _ hmm
    have hbt := hpos b hb
    omega
  rcases hbk : st.blocks with _ | ⟨b1, rest⟩
  · rw [hbk] at hsum
    simp [sumTot] at hsum
    omega
  rcases hrest : rest with _ | ⟨b2, rest2⟩
  · subst hrest
    have hb1f : b1.free = true := hall b1 (by rw [hbk]; simp)
    have hb1t : b1.total = R := by
      rw [hbk] at hsum
      simp [sumTot] at hsum
      exact hsum
    have hb1 : b1 = (⟨R, true⟩ : HBlock) := by
      cases b1
      simp at hb1f hb1t ⊢
      exact ⟨hb1t, hb1f⟩
    refine ⟨by rw [hb1], ?_⟩
    rw [hbk, hb1] at hperm
    have : freeA 0 [(⟨R, true⟩ : HBlock)] = [0] := by simp [freeA]
    rw [this] at hperm
    have := hperm.length_eq
    simp at this
    rw [hent, this]
  · exfalso
    subst hrest
    rw [hbk] at hadj
    unfold noAdjFree at hadj
    have := (List.chain'_cons.mp hadj).1
    exact this ⟨hall b1 (by rw [hbk]; simp), hall b2 (by rw [hbk]; simp)⟩

/-- C7.  Heap coalescing invariant: starting from a fresh heap, after any
sequence of (guarded) allocate/free operations no two physically adjacent
extents are both free — `vmcache_free`'s merge absorbs free neighbours on
both sides — and once `size_used` drains back to 0 the heap is exactly
one free extent spanning the whole usable region, with the heap entries
count equal to 1. -/
theorem c7_heap_no_adjacent_free_and_drain (size E : Nat) (ops : List HeapOp)
    (hE : HFER_SIZE < E) (hu : HFER_SIZE < heapUsable size) :
    noAdjFree (applyHeapOps (vmcache_heap_create size E) ops).blocks ∧
    ((applyHeapOps (vmcache_heap_create size E) ops).size_used = 0 →
      (applyHeapOps (vmcache_heap_create size E) ops).blocks
        = [⟨heapUsable size, true⟩] ∧
      (applyHeapOps (vmcache_heap_create size E) ops).entries = 1) := by
  have hwf := applyHeapOps_WF E (heapUsable size) ops _
    (heap_create_WF size E hE hu)
  refine ⟨hwf.1.2.2.2.1, ?_⟩
  intro hz
  exact heap_drained E (heapUsable size) _ hwf hz
    (by unfold HFER_SIZE at hu; omega)

theorem c7_heap_no_adjacent_free_and_drain_witness :
    HFER_SIZE < 256 ∧ HFER_SIZE < heapUsable 2048 ∧
    (noAdjFree (applyHeapOps (vmcache_heap_create 2048 256)
        [HeapOp.alloc 100 none, HeapOp.free [0]]).blocks ∧
      ((applyHeapOps (vmcache_heap_create 2048 256)
          [HeapOp.alloc 100 none, HeapOp.free [0]]).size_used = 0 →
        (applyHeapOps (vmcache_heap_create 2048 256)
            [HeapOp.alloc 100 none, HeapOp.free [0]]).blocks
          = [⟨heapUsable 2048, true⟩] ∧
        (applyHeapOps (vmcache_heap_create 2048 256)
            [HeapOp.alloc 100 none, HeapOp.free [0]]).entries = 1)) :=
  ⟨by decide, by decide,
    c7_heap_no_adjacent_free_and_drain 2048 256
      [HeapOp.alloc 100 none, HeapOp.free [0]] (by decide) (by decide)⟩

/-- C4.  Eviction progress and the empty-cache error: under LRU, a cache
holding one evictable entry sees `evict(NULL)` succeed (returning 0,
removing the entry from index and table and draining the heap back to a
single free extent) — but on an EMPTY cache `evict(NULL)` returns -1
WITHOUT setting `errno`: `repl_p_lru_evict` returns NULL and
vmemcache.c:617-621 just logs and returns, so `errno` keeps its prior
value (here 0) instead of the claimed `ESRCH`. -/
theorem c4_evict_progress_and_empty_no_esrch :
    (vmemcache_evict_null ⟨1048576, 1, vmcache_heap_create 1048576 256,
        none, [], [], 0, 0⟩).1 = -1 ∧
    (vmemcache_evict_null ⟨1048576, 1, vmcache_heap_create 1048576 256,
        none, [], [], 0, 0⟩).2.errno ≠ ESRCH ∧
    (vmemcache_evict_null ⟨1048576, 1,
        ((vmcache_alloc (vmcache_heap_create 1048576 256) 100 [] none).1).st,
        some (.leaf 0 (fullKey 1 [65])),
        [(0, ⟨1, [65], 100, [0], 2, false, true⟩)],
        [0], 1, 0⟩).1 = 0 ∧
    (vmemcache_evict_null ⟨1048576, 1,
        ((vmcache_alloc (vmcache_heap_create 1048576 256) 100 [] none).1).st,
        some (.leaf 0 (fullKey 1 [65])),
        [(0, ⟨1, [65], 100, [0], 2, false, true⟩)],
        [0], 1, 0⟩).2.tbl = [] ∧
    (vmemcache_evict_null ⟨1048576, 1,
        ((vmcache_alloc (vmcache_heap_create 1048576 256) 100 [] none).1).st,
        some (.leaf 0 (fullKey 1 [65])),
        [(0, ⟨1, [65], 100, [0], 2, false, true⟩)],
        [0], 1, 0⟩).2.heap = vmcache_heap_create 1048576 256 ∧
    (vmemcache_evict_null ⟨1048576, 1,
        ((vmcache_alloc (vmcache_heap_create 1048576 256) 100 [] none).1).st,
        some (.leaf 0 (fullKey 1 [65])),
        [(0, ⟨1, [65], 100, [0], 2, false, true⟩)],
        [0], 1, 0⟩).2.root = none := by
  refine ⟨by decide, by decide, by decide, by decide, by decide, rfl⟩

/-- C3.  `put` does NOT return `ENOSPC` when the allocator is empty and
nothing is evictable: under the `none` replacement policy (policy 0), the
internal `evict(NULL)` fails without setting `errno` (`repl_p_none_evict`
returns NULL, vmemcache.c:617-621), so the `if (errno == ESRCH) errno =
ENOSPC` translation at vmemcache.c:397-398 never fires — a second put
that cannot be satisfied returns -1 with `errno` still 0. -/
theorem c3_put_alloc_exhausted_errno_not_enospc :
    let st0 : CacheSt :=
      ⟨1048576, 0, vmcache_heap_create 1048576 256, none, [], [], 0, 0⟩
    let req0 : GetReqState := ⟨false, 0, [], false, 0, 0, false, [], none⟩
    let r1 := vmemcache_put st0 req0 1 [65] (fun _ => 7) 1048000
    let r2 := vmemcache_put r1.2.1 req0 1 [66] (fun _ => 7) 500000
    r1.1 = 0 ∧ r2.1 = -1 ∧ r2.2.1.errno = 0 ∧ ENOSPC ≠ 0 := by
  decide

/-- C2 counterexample.  Two successful puts of the SAME key: on a full
LRU cache the second put's allocation loop comes up short, evicts the
LRU victim — which is the first put's own entry for that very key — and
then succeeds: both puts return 0, the index ends up holding the new
entry, and no `EEXIST` is ever produced. -/
theorem c2_second_put_same_key_evicts_and_succeeds :
    let st0 : CacheSt :=
      ⟨1048576, 1, vmcache_heap_create 1048576 256, none, [], [], 0, 0⟩
    let req0 : GetReqState := ⟨false, 0, [], false, 0, 0, false, [], none⟩
    let r1 := vmemcache_put st0 req0 1 [65] (fun _ => 7) 1048000
    let r2 := vmemcache_put r1.2.1 req0 1 [65] (fun _ => 7) 500000
    r1.1 = 0 ∧ r2.1 = 0 ∧
    r2.2.1.tbl = [(1, ⟨1, [65], 500000, [0, 1048064], 2, false, true⟩)] ∧
    r2.2.1.lruQ = [1] ∧ r2.2.1.errno = 0 ∧
    r2.2.1.root = some (.leaf 1 (fullKey 1 [65])) := by
  refine ⟨?_, ?_, ?_, ?_, ?_, ?_⟩ <;> first | rfl | decide

theorem putAllocLoop_zero (fuel : Nat) (st : CacheSt) (chain : List Nat)
    (small : Option Nat) :
    putAllocLoop (fuel + 1) st 0 chain small = (true, st, chain) := by
  unfold putAllocLoop
  simp

theorem putAllocLoop_covered (fuel : Nat) (st : CacheSt)
    (value_size : Nat) (hv : value_size ≠ 0)
    (hcov : (vmcache_alloc st.heap value_size [] none).2 = value_size) :
    putAllocLoop (fuel + 2) st value_size [] none
      = (true,
         { st with heap := ((vmcache_alloc st.heap value_size [] none).1).st },
         ((vmcache_alloc st.heap value_size [] none).1).chain) := by
  have h2 : fuel + 2 = (fuel + 1) + 1 := by omega
  rw [h2]
  unfold putAllocLoop
  rw [if_neg hv]
  dsimp only
  rw [hcov, if_neg hv]
  rw [Nat.min_self, Nat.sub_self]
  exact putAllocLoop_zero fuel _ _ _

/-- C2 (amended).  A put of a key the cache already holds fails with -1
and `errno == EEXIST` PROVIDED the allocation loop is satisfied by its
first heap request (no eviction happens): `critnib_set` detects the
duplicate before any index mutation, the error path frees the extents
just allocated, and the index, entry table, LRU queue and id counter are
all left unchanged.  (Without the no-eviction proviso the claim is false:
see the counterexample, where the put first evicts its own old entry and
then succeeds.) -/
theorem c2_put_existing_key_eexist_no_evict (st : CacheSt)
    (req : GetReqState) (ksize : Nat) (key : List Nat) (value : Nat → Nat)
    (value_size : Nat) (id0 : Nat)
    (hget : critnib_get st.root (fullKey ksize key) = some id0)
    (hsz : value_size ≤ st.size)
    (hcov : (vmcache_alloc st.heap value_size [] none).2 = value_size) :
    (vmemcache_put st req ksize key value value_size).1 = -1 ∧
    (vmemcache_put st req ksize key value value_size).2.1.errno = EEXIST ∧
    (vmemcache_put st req ksize key value value_size).2.1.root = st.root ∧
    (vmemcache_put st req ksize key value value_size).2.1.tbl = st.tbl ∧
    (vmemcache_put st req ksize key value value_size).2.1.lruQ = st.lruQ ∧
    (vmemcache_put st req ksize key value value_size).2.1.nextId
      = st.nextId := by
  have hloop : ∃ stX chainX,
      putAllocLoop (value_size + st.tbl.length + 1) st value_size [] none
        = (true, stX, chainX) ∧
      stX.root = st.root ∧ stX.tbl = st.tbl ∧ stX.lruQ = st.lruQ ∧
      stX.nextId = st.nextId := by
    by_cases hv0 : value_size = 0
    · subst hv0
      refine ⟨st, [], ?_, rfl, rfl, rfl, rfl⟩
      exact putAllocLoop_zero _ _ _ _
    · refine ⟨{ st with
          heap := ((vmcache_alloc st.heap value_size [] none).1).st },
        ((vmcache_alloc st.heap value_size [] none).1).chain,
        ?_, rfl, rfl, rfl, rfl⟩
      have h2 : value_size + st.tbl.length + 1
          = (value_size + st.tbl.length - 1) + 2 := by omega
      rw [h2]
      exact putAllocLoop_covered _ _ _ hv0 hcov
  obtain ⟨stX, chainX, hl, hr, ht, hq, hn⟩ := hloop
  unfold vmemcache_put
  rw [if_neg (by omega)]
  dsimp only
  rw [hl]
  dsimp only
  rw [hr, hn]
  rw [critnib_get_set_eexist st.root (fullKey ksize key) id0 st.nextId hget]
  split
  · rename_i root1 heq
    rw [Prod.mk.injEq] at heq
    exact absurd heq.1.symm (by decide)
  · rename_i err root1 heq
    rw [Prod.mk.injEq] at heq
    exact ⟨rfl, heq.1.symm, rfl, ht, hq, rfl⟩

theorem c2_put_existing_key_eexist_no_evict_witness :
    (vmemcache_put
        ⟨1048576, 1,
          ((vmcache_alloc (vmcache_heap_create 1048576 256) 100 [] none).1).st,
          some (.leaf 0 (fullKey 1 [65])),
          [(0, ⟨1, [65], 100, [0], 2, false, true⟩)], [0], 1, 0⟩
        ⟨false, 0, [], false, 0, 0, false, [], none⟩
        1 [65] (fun _ => 7) 100).1 = -1 ∧
    (vmemcache_put
        ⟨1048576, 1,
          ((vmcache_alloc (vmcache_heap_create 1048576 256) 100 [] none).1).st,
          some (.leaf 0 (fullKey 1 [65])),
          [(0, ⟨1, [65], 100, [0], 2, false, true⟩)], [0], 1, 0⟩
        ⟨false, 0, [], false, 0, 0, false, [], none⟩
        1 [65] (fun _ => 7) 100).2.1.errno = EEXIST ∧
    (vmemcache_put
        ⟨1048576, 1,
          ((vmcache_alloc (vmcache_heap_create 1048576 256) 100 [] none).1).st,
          some (.leaf 0 (fullKey 1 [65])),
          [(0, ⟨1, [65], 100, [0], 2, false, true⟩)], [0], 1, 0⟩
        ⟨false, 0, [], false, 0, 0, false, [], none⟩
        1 [65] (fun _ => 7) 100).2.1.root
      = some (.leaf 0 (fullKey 1 [65])) ∧
    (vmemcache_put
        ⟨1048576, 1,
          ((vmcache_alloc (vmcache_heap_create 1048576 256) 100 [] none).1).st,
          some (.leaf 0 (fullKey 1 [65])),
          [(0, ⟨1, [65], 100, [0], 2, false, true⟩)], [0], 1, 0⟩
        ⟨false, 0, [], false, 0, 0, false, [], none⟩
        1 [65] (fun _ => 7) 100).2.1.tbl
      = [(0, ⟨1, [65], 100, [0], 2, false, true⟩)] ∧
    (vmemcache_put
        ⟨1048576, 1,
          ((vmcache_alloc (vmcache_heap_create 1048576 256) 100 [] none).1).st,
          some (.leaf 0 (fullKey 1 [65])),
          [(0, ⟨1, [65], 100, [0], 2, false, true⟩)], [0], 1, 0⟩
        ⟨false, 0, [], false, 0, 0, false, [], none⟩
        1 [65] (fun _ => 7) 100).2.1.lruQ = [0] ∧
    (vmemcache_put
        ⟨1048576, 1,
          ((vmcache_alloc (vmcache_heap_create 1048576 256) 100 [] none).1).st,
          some (.leaf 0 (fullKey 1 [65])),
          [(0, ⟨1, [65], 100, [0], 2, false, true⟩)], [0], 1, 0⟩
        ⟨false, 0, [], false, 0, 0, false, [], none⟩
        1 [65] (fun _ => 7) 100).2.1.nextId = 1 :=
  c2_put_existing_key_eexist_no_evict
    ⟨1048576, 1,
      ((vmcache_alloc (vmcache_heap_create 1048576 256) 100 [] none).1).st,
      some (.leaf 0 (fullKey 1 [65])),
      [(0, ⟨1, [65], 100, [0], 2, false, true⟩)], [0], 1, 0⟩
    ⟨false, 0, [], false, 0, 0, false, [], none⟩
    1 [65] (fun _ => 7) 100 0
    (by simp [critnib_get, getGo])
    (by decide) (by decide)

/-- C10.  When a get misses and its on-miss callback puts the same key,
the put satisfies the in-flight request BEFORE any validation or
allocation (vmemcache.c:363-364 precedes the size check at 366): the
caller's buffer receives `min(vbufsize, value_size - offset)` bytes taken
from the START of the new value, `*vsize` is set, and the outer get
returns that byte count — even though the put itself then fails with
`ENOSPC` (value larger than the whole cache) — and the satisfied get does
not report `ENOENT`. -/
theorem c10_miss_callback_put_satisfies_get (st : CacheSt) (ksize : Nat)
    (key : List Nat) (vbufsize offset : Nat) (value : Nat → Nat)
    (value_size : Nat)
    (hmiss : critnib_get st.root (fullKey ksize key) = none)
    (hoff : offset < value_size) (hbig : st.size < value_size) :
    vmemcache_get_miss_with_put st ksize key true vbufsize offset true
        value value_size
      = (((min vbufsize (value_size - offset) : Nat) : Int),
         { st with errno := ENOSPC },
         ⟨false, ksize, key, true, min vbufsize (value_size - offset),
          offset, true,
          (List.range (min vbufsize (value_size - offset))).map value,
          some value_size⟩) := by
  have hno : ¬ value_size ≤ offset := by omega
  have hreq1 : vmemcache_put_satisfy_get
      ⟨true, ksize, key, true, vbufsize, offset, true, [], none⟩
      ksize key value value_size
      = ⟨false, ksize, key, true, min vbufsize (value_size - offset),
         offset, true,
         (List.range (min vbufsize (value_size - offset))).map value,
         some value_size⟩ := by
    by_cases hc : value_size - offset < vbufsize
    · have hmin : min vbufsize (value_size - offset)
          = value_size - offset := by omega
      rw [hmin]
      simp [vmemcache_put_satisfy_get, hc, hno]
    · have hmin : min vbufsize (value_size - offset) = vbufsize := by
        omega
      rw [hmin]
      simp [vmemcache_put_satisfy_get, hc, hno]
  unfold vmemcache_get_miss_with_put vmemcache_put
  dsimp only
  rw [if_pos rfl]
  rw [hreq1]
  rw [if_pos hbig]
  try dsimp only
  rw [if_neg (by simp)]

theorem c10_miss_callback_put_satisfies_get_witness :
    vmemcache_get_miss_with_put
        ⟨100, 0, vmcache_heap_create 1048576 256, none, [], [], 0, 0⟩
        1 [65] true 50 10 true (fun n => n) 200
      = (((min 50 (200 - 10) : Nat) : Int),
         { (⟨100, 0, vmcache_heap_create 1048576 256, none, [], [], 0, 0⟩
            : CacheSt) with errno := ENOSPC },
         ⟨false, 1, [65], true, min 50 (200 - 10), 10, true,
          (List.range (min 50 (200 - 10))).map (fun n => n), some 200⟩) :=
  c10_miss_callback_put_satisfies_get
    ⟨100, 0, vmcache_heap_create 1048576 256, none, [], [], 0, 0⟩
    1 [65] 50 10 (fun n => n) 200 rfl (by decide) (by decide)
